import Mathlib

set_option maxRecDepth 4000

/-!
Verification development for a repository of four disposable Python
maintenance scripts: a dashboard-file rewriter (`refactor_dashboard.py`),
an ESLint-output-driven dead-code remover (`scripts/aggressive-cleanup.py`)
and two import-fixing scripts (`scripts/fix-unused-imports.py`,
`scripts/fix-workflow-coordinator-imports.py`).

Python strings are embedded as `List Char`.  The scripts' regular
expressions (all of which use only literals, single-character classes,
greedy `*`/`+` over single-character classes and capturing groups) are
embedded by a small backtracking matcher `rmatch` that returns all
matches at a given position in Python's backtracking priority order
(greedy quantifiers try longest first), so that the head of the list is
the match `re` selects.  `re.sub` is embedded by `subAll`, which scans
left to right, replaces the leftmost-first match and continues after it,
exactly as Python's `re.sub` does for these patterns.
-/

/-- Python strings are modelled as lists of characters. -/
abbrev Str := List Char

/-- Conversion from Lean string literals to the model. -/
def lit (s : String) : Str := s.toList

/-- Python `\s` (ASCII whitespace as relevant to these scripts). -/
def isPySpace (c : Char) : Bool :=
  c = ' ' || c = '\t' || c = '\n' || c = '\x0b' || c = '\x0c' || c = '\r'

/-- The character class `['"]` used by the scripts' regexes. -/
def isQuoteC (c : Char) : Bool := c = '\x27' || c = '"'

/-- Python `\d`. -/
def isDigitC (c : Char) : Bool := '0' ≤ c && c ≤ '9'

/-- Python `str.split(sep)` for a single-character separator. -/
def splitChar (sep : Char) : Str → List Str
  | [] => [[]]
  | c :: rest =>
    let r := splitChar sep rest
    if c = sep then [] :: r
    else
      match r with
      | h :: t => (c :: h) :: t
      | [] => [[c]]

/-- Python `sep.join(pieces)` for a single-character separator. -/
def joinChar (sep : Char) : List Str → Str
  | [] => []
  | [x] => x
  | x :: y :: xs => x ++ sep :: joinChar sep (y :: xs)

/-- Python `str.strip()` (whitespace from both ends; inputs are ASCII). -/
def stripPy (s : Str) : Str :=
  ((s.dropWhile isPySpace).reverse.dropWhile isPySpace).reverse

/-- Python `needle in s` (substring containment). -/
def containsS (needle : Str) : Str → Bool
  | [] => needle.isEmpty
  | c :: t => needle.isPrefixOf (c :: t) || containsS needle t

/-- Fuelled worker for Python `str.count` (non-overlapping occurrences,
scanning left to right and jumping over each occurrence found).  Each
step consumes at least one character, so fuel `s.length + 1` is exact. -/
def countSubF (needle : Str) : Nat → Str → Nat
  | 0, _ => 0
  | f + 1, s =>
    if needle.isPrefixOf s then 1 + countSubF needle f (s.drop needle.length)
    else
      match s with
      | [] => 0
      | _ :: t => countSubF needle f t

/-- Python `s.count(needle)` for a nonempty needle (the scripts only ever
count nonempty needles; Python's `s.count("")` would be `len(s) + 1`). -/
def countSub (needle s : Str) : Nat :=
  if needle = [] then s.length + 1 else countSubF needle (s.length + 1) s

/-- Python `int` on a digit string. -/
def digitsToNat (s : Str) : Nat :=
  s.foldl (fun n c => n * 10 + (c.toNat - ('0').toNat)) 0

/-! ## The regex engine -/

/-- Regex abstract syntax sufficient for every pattern in the scripts:
literals, single-character classes, greedy star over a single-character
class, concatenation and capturing groups. -/
inductive Regex where
  | eps : Regex
  | ch (p : Char → Bool) : Regex
  | str (l : Str) : Regex
  | seq (a b : Regex) : Regex
  | starCh (p : Char → Bool) : Regex
  | group (i : Nat) (r : Regex) : Regex

/-- Captured groups: index paired with captured text. -/
abbrev Groups := List (Nat × Str)

/-- Greedy alternatives for a star over a class whose maximal run has
length `m`: consume `m, m-1, ..., 0` characters, in that order. -/
def starLens (m : Nat) : List Nat := (List.range (m + 1)).map (fun k => m - k)

/-- All matches of `r` at the start of `s`, as (consumed length, groups),
in Python's backtracking priority order: the head of the list is the
match Python's `re` engine selects at this position. -/
def rmatch : Regex → Str → List (Nat × Groups)
  | .eps, _ => [(0, [])]
  | .ch _, [] => []
  | .ch p, c :: _ => if p c then [(1, [])] else []
  | .str l, s => if l.isPrefixOf s then [(l.length, [])] else []
  | .seq a b, s =>
    (rmatch a s).flatMap
      (fun pr => (rmatch b (s.drop pr.1)).map (fun q => (pr.1 + q.1, pr.2 ++ q.2)))
  | .starCh p, s => (starLens (s.takeWhile p).length).map (fun n => (n, []))
  | .group i r, s => (rmatch r s).map (fun pr => (pr.1, (i, s.take pr.1) :: pr.2))

/-- Greedy `+` over a character class, as in Python: one mandatory
character followed by a greedy star. -/
def plusC (p : Char → Bool) : Regex := .seq (.ch p) (.starCh p)

/-- Right-nested concatenation of a pattern list. -/
def rseq : List Regex → Regex
  | [] => .eps
  | [r] => r
  | r :: rs => .seq r (rseq rs)

/-- Python `match.group(i)` (our patterns bind each group exactly once). -/
def lookupG (i : Nat) (g : Groups) : Str :=
  ((g.find? (fun e => e.1 == i)).map (fun e => e.2)).getD []

/-- Fuelled worker for `re.sub`: scan left to right; at each position take
the engine's first match; on a nonempty match emit the replacement and
continue after it; on an empty match emit the replacement plus the next
character; otherwise copy one character.  Every step consumes at least
one character (or ends), so fuel `s.length + 1` is exact. -/
def subAllF (r : Regex) (repl : Groups → Str) : Nat → Str → Str
  | 0, s => s
  | f + 1, s =>
    match (rmatch r s).head? with
    | some (n, g) =>
      if n = 0 then
        match s with
        | [] => repl g
        | c :: t => repl g ++ c :: subAllF r repl f t
      else repl g ++ subAllF r repl f (s.drop n)
    | none =>
      match s with
      | [] => []
      | c :: t => c :: subAllF r repl f t

/-- Python `re.sub(r, repl, s)` (replace all non-overlapping matches). -/
def subAll (r : Regex) (repl : Groups → Str) (s : Str) : Str :=
  subAllF r repl (s.length + 1) s

/-- Python `re.search(r, line)` returning `group(1)` of the first match
(scanning positions left to right, backtracking order at each one). -/
def searchG (r : Regex) : Str → Option Str
  | [] => ((rmatch r ([] : Str)).head?).map (fun pr => lookupG 1 pr.2)
  | c :: t =>
    match (rmatch r (c :: t)).head? with
    | some (_, g) => some (lookupG 1 g)
    | none => searchG r t

/-- Python `re.search(r'^...', line)` without `re.MULTILINE`: the `^`
anchors the match at position 0, so search degenerates to a match at the
start; returns `group(1)`. -/
def headMatchG (r : Regex) (s : Str) : Option Str :=
  ((rmatch r s).head?).map (fun pr => lookupG 1 pr.2)

/-! ## Filesystem model

Each script reads and writes whole files at string paths; the filesystem
is an association list from path to content. -/

/-- Filesystem: association list path ↦ content. -/
abbrev FS := List (Str × Str)

/-- `Path.exists` / `Path.read_text`. -/
def fsread (fs : FS) (p : Str) : Option Str :=
  ((fs.find? (fun e => e.1 == p)).map (fun e => e.2))

/-- `Path.write_text`: replace the entry in place, or append a new one. -/
def fswrite : FS → Str → Str → FS
  | [], p, v => [(p, v)]
  | e :: rest, p, v => if e.1 == p then (p, v) :: rest else e :: fswrite rest p v

/-! ## `scripts/aggressive-cleanup.py` -/

/-- Pattern `\{\s*sym\s*\}` of `remove_from_import` (the symbols fed in
are identifiers, so `re.escape` is the identity on them). -/
def rfiPat1 (sym : Str) : Regex :=
  rseq [.ch (fun c => c = '\x7b'), .starCh isPySpace, .str sym,
        .starCh isPySpace, .ch (fun c => c = '\x7d')]

/-- Pattern `,\s*sym\s*[,}]` of `remove_from_import`. -/
def rfiPat2 (sym : Str) : Regex :=
  rseq [.ch (fun c => c = ','), .starCh isPySpace, .str sym,
        .starCh isPySpace, .ch (fun c => c = ',' || c = '\x7d')]

/-- Pattern `\{\s*sym\s*,` of `remove_from_import`. -/
def rfiPat3 (sym : Str) : Regex :=
  rseq [.ch (fun c => c = '\x7b'), .starCh isPySpace, .str sym,
        .starCh isPySpace, .ch (fun c => c = ',')]

/-- Pattern `import\s+\{\s*\}\s+from\s+['"][^'\"]+['"];\s*\n` of
`remove_from_import` (cleanup of now-empty import statements). -/
def rfiPat4 : Regex :=
  rseq [.str (lit ("import")), plusC isPySpace, .ch (fun c => c = '\x7b'),
        .starCh isPySpace, .ch (fun c => c = '\x7d'), plusC isPySpace,
        .str (lit ("from")), plusC isPySpace, .ch isQuoteC,
        plusC (fun c => !isQuoteC c), .ch isQuoteC, .ch (fun c => c = ';'),
        .starCh isPySpace, .ch (fun c => c = '\n')]

/-- `remove_from_import(content, symbol)`: the four `re.sub` calls in
source order. -/
def remove_from_import (content sym : Str) : Str :=
  let c1 := subAll (rfiPat1 sym) (fun _ => lit ("\x7b\x7d")) content
  let c2 := subAll (rfiPat2 sym) (fun _ => lit (",")) c1
  let c3 := subAll (rfiPat3 sym) (fun _ => lit ("\x7b")) c2
  subAll rfiPat4 (fun _ => []) c3

/-- Pattern `,\s*param\s*:` of `remove_parameter`. -/
def rpPat1 (param : Str) : Regex :=
  rseq [.ch (fun c => c = ','), .starCh isPySpace, .str param,
        .starCh isPySpace, .ch (fun c => c = ':')]

/-- Pattern `\(\s*param\s*:` of `remove_parameter`. -/
def rpPat2 (param : Str) : Regex :=
  rseq [.ch (fun c => c = '('), .starCh isPySpace, .str param,
        .starCh isPySpace, .ch (fun c => c = ':')]

/-- Pattern `:\s*[^,)]+,\s*` of `remove_parameter`. -/
def rpPat3 : Regex :=
  rseq [.ch (fun c => c = ':'), .starCh isPySpace,
        plusC (fun c => !(c = ',' || c = ')')), .ch (fun c => c = ','),
        .starCh isPySpace]

/-- The three `re.sub` calls `remove_parameter` applies to the one line. -/
def rpLine (param l : Str) : Str :=
  let l1 := subAll (rpPat1 param) (fun _ => lit (",")) l
  let l2 := subAll (rpPat2 param) (fun _ => lit ("(")) l1
  subAll rpPat3 (fun _ => lit (": ")) l2

/-- `remove_parameter(content, param, line_num)`: split on newlines; when
`line_num <= len(lines)` rewrite the line at Python index `line_num - 1`
(Python's negative indexing makes `line_num = 0` address the last line)
and re-join; otherwise return the content untouched. -/
def remove_parameter (content param : Str) (line_num : Nat) : Str :=
  let lines := splitChar '\n' content
  if line_num ≤ lines.length then
    let idx := if line_num = 0 then lines.length - 1 else line_num - 1
    joinChar '\n' (lines.set idx (rpLine param (lines.getD idx [])))
  else content

/-- Append `(line_num, symbol)` under key `file` exactly as
`defaultdict(list)` does: extend an existing key's list, else add the
key at the end (Python dicts preserve insertion order). -/
def dictAppend (acc : List (Str × List (Nat × Str))) (k : Str) (v : Nat × Str) :
    List (Str × List (Nat × Str)) :=
  if (acc.find? (fun e => e.1 == k)).isSome then
    acc.map (fun e => if e.1 == k then (e.1, e.2 ++ [v]) else e)
  else acc ++ [(k, [v])]

/-- Pattern `'([^']+)'` used to extract the quoted symbol. -/
def quotedSymPat : Regex :=
  rseq [.ch (fun c => c = '\x27'), .group 1 (plusC (fun c => !(c = '\x27'))),
        .ch (fun c => c = '\x27')]

/-- Pattern `^\s*(\d+):` used to extract the line number. -/
def lineNumPat : Regex :=
  rseq [.starCh isPySpace, .group 1 (plusC isDigitC), .ch (fun c => c = ':')]

/-- Is this lint-output line a file-path line?  (`get_unused_items` keys
on `line.strip().startswith('/Users')`.) -/
def isPathLine (l : Str) : Bool := (lit ("/Users")).isPrefixOf (stripPy l)

/-- The line-scanning loop of `get_unused_items`: track the current file
(the most recent `/Users...` line) and collect `(line number, symbol)`
for every diagnostic line that has a quoted symbol, the phrase
`is defined but never used`, a current file, and a leading line number. -/
def processLines :
    List Str → Option Str → List (Str × List (Nat × Str)) →
      List (Str × List (Nat × Str))
  | [], _, acc => acc
  | l :: ls, cur, acc =>
    if isPathLine l then processLines ls (some (stripPy l)) acc
    else
      if containsS (lit ("\x27")) l && containsS (lit ("is defined but never used")) l then
        match searchG quotedSymPat l, cur with
        | some sym, some cf =>
          match headMatchG lineNumPat l with
          | some digits => processLines ls cur (dictAppend acc cf (digitsToNat digits, sym))
          | none => processLines ls cur acc
        | _, _ => processLines ls cur acc
      else processLines ls cur acc

/-- `get_unused_items()` applied to the captured lint output text. -/
def get_unused_items (output : Str) : List (Str × List (Nat × Str)) :=
  processLines (splitChar '\n' output) none []

/-- Python tuple comparison `(int, str) < (int, str)`: lexicographic on
the number, then on the string (by character code). -/
def strLtPy : Str → Str → Bool
  | [], [] => false
  | [], _ :: _ => true
  | _ :: _, [] => false
  | c :: cs, d :: ds => if c = d then strLtPy cs ds else decide (c < d)

/-- `x >= y` on `(line number, symbol)` pairs under Python ordering. -/
def tupGe (x y : Nat × Str) : Bool :=
  y.1 < x.1 || (x.1 = y.1 && !strLtPy x.2 y.2)

/-- Stable descending insertion, modelling `sorted(items, reverse=True)`. -/
def insertDesc (x : Nat × Str) : List (Nat × Str) → List (Nat × Str)
  | [] => [x]
  | y :: ys => if tupGe x y then x :: y :: ys else y :: insertDesc x ys

/-- `sorted(items, reverse=True)`. -/
def sortDesc (l : List (Nat × Str)) : List (Nat × Str) :=
  l.foldr insertDesc []

/-- The per-item body of `main`'s inner loop: strip the symbol from
imports, then, if the current content mentions `function`, `async` or
`=>`, also try to strip a same-named parameter at the reported line. -/
def cleanupItem (c : Str) (it : Nat × Str) : Str :=
  let c1 := remove_from_import c it.2
  if containsS (lit ("function")) c1 || containsS (lit ("async")) c1 ||
      containsS (lit ("=>")) c1 then
    remove_parameter c1 it.2 it.1
  else c1

/-- All edits `main` applies to one file's content, in order
(`sorted(items, reverse=True)`). -/
def cleanupContent (content : Str) (items : List (Nat × Str)) : Str :=
  (sortDesc items).foldl cleanupItem content

/-- `main`'s per-file step: skip missing files; write back only when the
edited content differs from what was read. -/
def cleanupFile (fs : FS) (fp : Str) (items : List (Nat × Str)) : FS :=
  match fsread fs fp with
  | none => fs
  | some content =>
    let newC := cleanupContent content items
    if newC = content then fs else fswrite fs fp newC

/-- `main()` of `aggressive-cleanup.py` as a filesystem transformer: if
the lint output yields no unused items it returns before running the
tests; otherwise it edits each listed file and then runs the test
command.  The boolean records whether `npm test` was invoked. -/
def mainCleanup (lintOut : Str) (fs : FS) : FS × Bool :=
  let unused := get_unused_items lintOut
  if unused.isEmpty then (fs, false)
  else (unused.foldl (fun f e => cleanupFile f e.1 e.2) fs, true)

/-! ## `scripts/fix-workflow-coordinator-imports.py` -/

/-- The symbol the script removes. -/
def coordName : Str := lit ("WorkflowCoordinator")

/-- The literal `import { WorkflowCoordinator }` whose presence gates the
removal. -/
def coordClause : Str := lit ("import \x7b WorkflowCoordinator \x7d")

/-- Pattern `import \{ WorkflowCoordinator \} from ['\"][^'\"]+['\"];\n`. -/
def coordPatA : Regex :=
  rseq [.str (lit ("import \x7b WorkflowCoordinator \x7d from ")), .ch isQuoteC,
        plusC (fun c => !isQuoteC c), .ch isQuoteC, .str (lit (";\n"))]

/-- The three `re.sub` calls of the WorkflowCoordinator fixer, in order. -/
def coordSub (content : Str) : Str :=
  let n1 := subAll coordPatA (fun _ => []) content
  let n2 := subAll (.str (lit (", WorkflowCoordinator"))) (fun _ => []) n1
  subAll (.str (lit ("WorkflowCoordinator, "))) (fun _ => []) n2

/-- The per-file body of the WorkflowCoordinator fixer: act only when the
symbol occurs, exactly once, and `import { WorkflowCoordinator }` is
present; write back only when the substitutions changed the content.
Returns the resulting content and whether the file was written. -/
def coordProcess (content : Str) : Str × Bool :=
  if containsS coordName content then
    if countSub coordName content == 1 && containsS coordClause content then
      let n := coordSub content
      if n = content then (content, false) else (n, true)
    else (content, false)
  else (content, false)

/-- The hardcoded `files_to_check` list. -/
def coordFiles : List Str :=
  [lit ("tests/blockedTaskResolution.test.ts"),
   lit ("tests/commitAndPush.test.ts"),
   lit ("tests/handleCoordinator.overrides.test.ts"),
   lit ("tests/happyPath.test.ts"),
   lit ("tests/initialPlanningAckAndEval.test.ts"),
   lit ("tests/processedOnce.test.ts"),
   lit ("tests/qaFailure.test.ts"),
   lit ("tests/qaFollowupExecutes.test.ts"),
   lit ("tests/qaPlanIterationMax.test.ts"),
   lit ("tests/qaPmGating.test.ts")]

/-- One iteration of a fixer script's main loop: skip a missing file,
rewrite an existing one when its per-file body says it changed. -/
def fixStep (proc : Str → Str × Bool) (f : FS) (p : Str) : FS :=
  match fsread f p with
  | none => f
  | some c => if (proc c).2 then fswrite f p (proc c).1 else f

/-- The common shape of both fixer scripts' main loops: iterate the fixed
file list applying `fixStep`. -/
def runFiles (proc : Str → Str × Bool) (files : List Str) (fs : FS) : FS :=
  files.foldl (fixStep proc) fs

/-- The script's main loop over `files_to_check` (missing files are
skipped). -/
def runCoord (fs : FS) : FS := runFiles coordProcess coordFiles fs

/-! ## `scripts/fix-unused-imports.py` -/

/-- Pattern
`(import\s+{[^}]*), WorkflowStepConfig([^}]*}\s+from\s+['"]\.\.\/engine\/WorkflowStep\.js['"])`. -/
def stepPat : Regex :=
  .seq (.group 1 (rseq [.str (lit ("import")), plusC isPySpace,
                        .ch (fun c => c = '\x7b'), .starCh (fun c => !(c = '\x7d'))]))
    (.seq (.str (lit (", WorkflowStepConfig")))
      (.group 2 (rseq [.starCh (fun c => !(c = '\x7d')), .ch (fun c => c = '\x7d'),
                       plusC isPySpace, .str (lit ("from")), plusC isPySpace,
                       .ch isQuoteC, .str (lit ("../engine/WorkflowStep.js")),
                       .ch isQuoteC])))

/-- The replacement `\1\2`. -/
def stepRepl (g : Groups) : Str := lookupG 1 g ++ lookupG 2 g

/-- The single `re.sub` of the WorkflowStepConfig fixer. -/
def stepSub (content : Str) : Str := subAll stepPat stepRepl content

/-- The per-file body: write back only when the substitution changed the
content; returns the resulting content and whether the file was written. -/
def stepProcess (content : Str) : Str × Bool :=
  let n := stepSub content
  if n = content then (content, false) else (n, true)

/-- The hardcoded `files_to_fix` list. -/
def stepFiles : List Str :=
  [lit ("src/workflows/steps/ContextStep.ts"),
   lit ("src/workflows/steps/GitOperationStep.ts"),
   lit ("src/workflows/steps/MilestoneStatusCheckStep.ts"),
   lit ("src/workflows/steps/PersonaRequestStep.ts"),
   lit ("src/workflows/steps/PlanEvaluationStep.ts"),
   lit ("src/workflows/steps/PlanningLoopStep.ts"),
   lit ("src/workflows/steps/PlanningStep.ts"),
   lit ("src/workflows/steps/PullTaskStep.ts"),
   lit ("src/workflows/steps/QAStep.ts"),
   lit ("src/workflows/steps/ReviewFailureTasksStep.ts"),
   lit ("src/workflows/steps/SimpleTaskStatusStep.ts"),
   lit ("src/workflows/steps/TaskUpdateStep.ts"),
   lit ("src/workflows/steps/VariableResolutionStep.ts")]

/-- The script's main loop over `files_to_fix`. -/
def runStep (fs : FS) : FS := runFiles stepProcess stepFiles fs

/-! ## `refactor_dashboard.py` -/

/-- The hardcoded replacement content for `src/dashboard.ts` in
`refactor_dashboard.py` (the Python source is a single string literal;
it is reproduced here line by line, byte for byte). -/
def dashboardNewContent : String :=
  "import \x7b cfg \x7d from \"./config.js\";\n" ++
  "import \x7b fetch \x7d from \"undici\";\n" ++
  "import \x7b logger \x7d from \"./logger.js\";\n" ++
  "import \x7b ProjectAPI \x7d from \"./dashboard/ProjectAPI.js\";\n" ++
  "import \x7b TaskAPI, CreateTaskInput, CreateTaskResult \x7d from \"./dashboard/TaskAPI.js\";\n" ++
  "\n" ++
  "// Initialize API clients\n" ++
  "const projectAPI = new ProjectAPI();\n" ++
  "const taskAPI = new TaskAPI();\n" ++
  "\n" ++
  "// Re-export types for backward compatibility\n" ++
  "export type \x7b CreateTaskInput, CreateTaskResult \x7d;\n" ++
  "\n" ++
  "/**\n" ++
  " * Fetch context snapshot for a workflow\n" ++
  " */\n" ++
  "export async function fetchContext(workflowId: string) \x7b\n" ++
  "  try \x7b\n" ++
  "    // Use context-by-workflow endpoint if available in cfg.dashboardContextEndpoint (overrideable)\n" ++
  "    if (cfg.dashboardContextEndpoint && cfg.dashboardContextEndpoint.startsWith(\x27http\x27)) \x7b\n" ++
  "      const url = new URL(cfg.dashboardContextEndpoint);\n" ++
  "      url.searchParams.set(\x27workflow_id\x27, workflowId);\n" ++
  "      url.searchParams.set(\x27limit\x27, \x275\x27);\n" ++
  "      const r = await fetch(url.toString(), \x7b\n" ++
  "        headers: \x7b \"Authorization\": \x60Bearer $\x7bcfg.dashboardApiKey\x7d\x60 \x7d\n" ++
  "      \x7d);\n" ++
  "      if (!r.ok) throw new Error(\x60dashboard $\x7br.status\x7d\x60);\n" ++
  "      const data = await r.json();\n" ++
  "      return data;\n" ++
  "    \x7d\n" ++
  "\n" ++
  "    const r = await fetch(\x60$\x7bcfg.dashboardBaseUrl.replace(/\\/$/, \x27\x27)\x7d/context/by-workflow?workflow_id=$\x7bencodeURIComponent(workflowId)\x7d&limit=5\x60, \x7b\n" ++
  "      headers: \x7b \"Authorization\": \x60Bearer $\x7bcfg.dashboardApiKey\x7d\x60 \x7d\n" ++
  "    \x7d);\n" ++
  "    if (!r.ok) throw new Error(\x60dashboard $\x7br.status\x7d\x60);\n" ++
  "    const data = await r.json();\n" ++
  "    return data;\n" ++
  "  \x7d catch \x7b\n" ++
  "    return \x7b projectTree: \"\", fileHotspots: \"\", limits: \"\", personaHints: \"\" \x7d;\n" ++
  "  \x7d\n" ++
  "\x7d\n" ++
  "\n" ++
  "/**\n" ++
  " * Record an event to dashboard\n" ++
  " */\n" ++
  "export async function recordEvent(ev: any) \x7b\n" ++
  "  try \x7b\n" ++
  "    const endpoint = \x60$\x7bcfg.dashboardBaseUrl.replace(/\\/$/, \x27\x27)\x7d/v1/events\x60;\n" ++
  "    await fetch(endpoint, \x7b\n" ++
  "      method: \"POST\",\n" ++
  "      headers: \x7b\n" ++
  "        \"Authorization\": \x60Bearer $\x7bcfg.dashboardApiKey\x7d\x60,\n" ++
  "        \"Content-Type\": \"application/json\"\n" ++
  "      \x7d,\n" ++
  "      body: JSON.stringify(ev)\n" ++
  "    \x7d);\n" ++
  "  \x7d catch (e) \x7b\n" ++
  "    logger.warn(\"dashboard event post failed\", \x7b error: e, event: ev \x7d);\n" ++
  "  \x7d\n" ++
  "\x7d\n" ++
  "\n" ++
  "// Delegate project operations to ProjectAPI\n" ++
  "export async function fetchProjectStatus(projectId: string | null | undefined) \x7b\n" ++
  "  return projectAPI.fetchProjectStatus(projectId);\n" ++
  "\x7d\n" ++
  "\n" ++
  "export async function fetchProjectMilestones(projectId: string | null | undefined) \x7b\n" ++
  "  return projectAPI.fetchProjectMilestones(projectId);\n" ++
  "\x7d\n" ++
  "\n" ++
  "export async function fetchProjectStatusDetails(projectId: string | null | undefined) \x7b\n" ++
  "  return projectAPI.fetchProjectStatusDetails(projectId);\n" ++
  "\x7d\n" ++
  "\n" ++
  "export async function fetchProjectStatusSummary(projectId: string | null | undefined) \x7b\n" ++
  "  return projectAPI.fetchProjectStatusSummary(projectId);\n" ++
  "\x7d\n" ++
  "\n" ++
  "export async function fetchProjectTasks(projectId: string) \x7b\n" ++
  "  return projectAPI.fetchProjectTasks(projectId);\n" ++
  "\x7d\n" ++
  "\n" ++
  "// Delegate task operations to TaskAPI\n" ++
  "export async function createDashboardTask(input: CreateTaskInput): Promise<CreateTaskResult | null> \x7b\n" ++
  "  return taskAPI.createDashboardTask(input);\n" ++
  "\x7d\n" ++
  "\n" ++
  "export async function fetchTask(taskId: string): Promise<any | null> \x7b\n" ++
  "  return taskAPI.fetchTask(taskId);\n" ++
  "\x7d\n" ++
  "\n" ++
  "export async function updateTaskStatus(\n" ++
  "  taskId: string,\n" ++
  "  status: string,\n" ++
  "  projectId?: string,\n" ++
  "  lockVersion?: number\n" ++
  "): Promise<CreateTaskResult> \x7b\n" ++
  "  return taskAPI.updateTaskStatus(taskId, status, projectId, lockVersion);\n" ++
  "\x7d\n" ++
  ""

/-- The hardcoded absolute target path the script opens for writing. -/
def dashboardPath : Str :=
  lit ("/Users/jamescoghlan/code/multi-agent-machine-client/src/dashboard.ts")

/-- The whole script: one unconditional overwrite of the target file with
the constant content; no read, no merge, no check of prior content. -/
def runRefactor (fs : FS) : FS := fswrite fs dashboardPath (dashboardNewContent.toList)

/-! ## Static pattern analysis helpers -/

/-- The literal a pattern must begin with, when it syntactically starts
with one (used to rule matches out of regions lacking that literal). -/
def headLit : Regex → Option Str
  | .str l => some l
  | .seq a _ => headLit a
  | .group _ r => headLit r
  | _ => none

/-- All top-level literals of a pattern: any successful match must
contain each of them as a substring. -/
def litsOf : Regex → List Str
  | .str l => [l]
  | .seq a b => litsOf a ++ litsOf b
  | .group _ r => litsOf r
  | _ => []

/-- Instrumented matcher: same result list as `rmatch`, plus a flag that
records whether any explored branch inspected the end of the input.  When
the flag is `false` the outcome is insensitive to appending more input. -/
def rmatchI : Regex → Str → List (Nat × Groups) × Bool
  | .eps, _ => ([(0, [])], false)
  | .ch _, [] => ([], true)
  | .ch p, c :: _ => (if p c then [(1, [])] else [], false)
  | .str l, s =>
    (if l.isPrefixOf s then [(l.length, [])] else [],
     decide (s.length < l.length) && s.isPrefixOf l)
  | .seq a b, s =>
    let ra := rmatchI a s
    (ra.1.flatMap
       (fun pr => ((rmatchI b (s.drop pr.1)).1).map (fun q => (pr.1 + q.1, pr.2 ++ q.2))),
     ra.2 || ra.1.any (fun pr => (rmatchI b (s.drop pr.1)).2))
  | .starCh p, s =>
    ((starLens (s.takeWhile p).length).map (fun n => (n, [])),
     (s.takeWhile p).length == s.length)
  | .group i r, s =>
    let ri := rmatchI r s
    (ri.1.map (fun pr => (pr.1, (i, s.take pr.1) :: pr.2)), ri.2)

/-! ## Concrete inputs used by the claim theorems -/

/-- Synthetic lint output whose path line starts with `/Users`. -/
def lintUsers : Str :=
  lit ("/Users/tmp/a.ts\n  3:1  \x27foo\x27 is defined but never used\n")

/-- Synthetic lint output naming `/tmp/a.ts`, as the claim words it. -/
def lintTmp : Str :=
  lit ("/tmp/a.ts\n  3:1  \x27foo\x27 is defined but never used\n")

/-- A source file whose line 3 has `foo` inside a destructured import. -/
def fileC1 : Str :=
  lit ("const x = 1;\n\nimport \x7b foo, baz \x7d from \"./bar.js\";\nconst y = 2;\n")

/-- `fileC1` after `foo` is removed from the import list. -/
def fileC1out : Str :=
  lit ("const x = 1;\n\nimport \x7b baz \x7d from \"./bar.js\";\nconst y = 2;\n")

/-- The input line of the WorkflowStepConfig claim. -/
def stepLineIn : Str :=
  lit ("import \x7b A, WorkflowStepConfig, B \x7d from \"../engine/WorkflowStep.js\"")

/-- The expected output line: `WorkflowStepConfig` gone, no dangling comma. -/
def stepLineOut : Str :=
  lit ("import \x7b A, B \x7d from \"../engine/WorkflowStep.js\"")

/-- A file on which the WorkflowStepConfig substitution is not idempotent:
each run removes one of the two occurrences. -/
def stepTwice : Str :=
  lit ("import \x7bX, WorkflowStepConfig, WorkflowStepConfig\x7d from \"../engine/WorkflowStep.js\"")

/-- A file that consists solely of a `WorkflowCoordinator` import line but
lacks the trailing `;` + newline the removal pattern insists on. -/
def coordStuck : Str :=
  lit ("import \x7b WorkflowCoordinator \x7d from \"./x\"")

/-- The head literal of the canonical `WorkflowCoordinator` import line. -/
def coordLit : Str := lit ("import \x7b WorkflowCoordinator \x7d from ")

/-- A canonical `WorkflowCoordinator` import line: the head literal, a
quoted module path, then `;` and a newline. -/
def coordLine (q : Char) (path : Str) : Str :=
  coordLit ++ q :: (path ++ q :: lit (";\n"))

/-! ## Engine lemmas -/

/-- A `<+:` fact lifted to `<:+:`. -/
theorem prefInf {l₁ l₂ : Str} (h : l₁ <+: l₂) : l₁ <:+: l₂ :=
  List.IsPrefix.isInfix h

/-- A `<:+` fact lifted to `<:+:`. -/
theorem sufInf {l₁ l₂ : Str} (h : l₁ <:+ l₂) : l₁ <:+: l₂ :=
  List.IsSuffix.isInfix h

/-- Every match consumes at most the whole input. -/
theorem rmatch_le (r : Regex) :
    ∀ (s : Str) (pr : Nat × Groups), pr ∈ rmatch r s → pr.1 ≤ s.length := by
  induction r with
  | eps =>
    intro s pr h
    simp only [rmatch, List.mem_singleton] at h
    subst h; simp
  | ch p =>
    intro s pr h
    match s with
    | [] => simp [rmatch] at h
    | c :: t =>
      simp only [rmatch] at h
      split at h
      · simp only [List.mem_singleton] at h; subst h; simp
      · simp at h
  | str l =>
    intro s pr h
    simp only [rmatch] at h
    split at h
    case isTrue hp =>
      simp only [List.mem_singleton] at h; subst h
      exact List.IsPrefix.length_le (List.isPrefixOf_iff_prefix.mp hp)
    case isFalse => simp at h
  | seq a b iha ihb =>
    intro s pr h
    simp only [rmatch, List.mem_flatMap] at h
    obtain ⟨pa, hpa, hmem⟩ := h
    simp only [List.mem_map] at hmem
    obtain ⟨q, hq, rfl⟩ := hmem
    have h1 := iha s pa hpa
    have h2 := ihb (s.drop pa.1) q hq
    simp only [List.length_drop] at h2
    simp only []
    omega
  | starCh p =>
    intro s pr h
    simp only [rmatch, starLens, List.mem_map, List.mem_range] at h
    obtain ⟨k, hk, rfl⟩ := h
    have hw : (s.takeWhile p).length ≤ s.length :=
      List.IsPrefix.length_le (List.takeWhile_prefix p)
    simp only []
    omega
  | group i r ih =>
    intro s pr h
    simp only [rmatch, List.mem_map] at h
    obtain ⟨q, hq, rfl⟩ := h
    exact ih s q hq


/-- The head match, if any, consumes at most the whole input. -/
theorem rmatch_head_le {r : Regex} {s : Str} {n : Nat} {g : Groups}
    (h : (rmatch r s).head? = some (n, g)) : n ≤ s.length := by
  have hm : (n, g) ∈ rmatch r s := by
    rcases hr : rmatch r s with _ | ⟨x, xs⟩
    · rw [hr] at h; simp at h
    · rw [hr] at h
      simp only [List.head?_cons, Option.some.injEq] at h
      rw [← h]
      exact List.mem_cons_self x xs
  exact rmatch_le r s (n, g) hm

/-- `subAllF` is stable once the fuel reaches `length + 1`. -/
theorem subAllF_stable (r : Regex) (repl : Groups → Str) :
    ∀ (f : Nat) (s : Str), s.length + 1 ≤ f →
      subAllF r repl f s = subAllF r repl (s.length + 1) s := by
  intro f
  induction f using Nat.strong_induction_on with
  | _ f ih =>
    intro s hf
    cases f with
    | zero => omega
    | succ f' =>
      rcases hm : (rmatch r s).head? with _ | ⟨n, g⟩
      · simp only [subAllF, hm]
        cases s with
        | nil => rfl
        | cons c t =>
          simp only [List.length_cons] at hf ⊢
          rw [ih f' (by omega) t (by omega)]
      · have hn := rmatch_head_le hm
        by_cases h0 : n = 0
        · subst h0
          simp only [subAllF, hm, eq_self_iff_true, if_true]
          cases s with
          | nil => rfl
          | cons c t =>
            simp only [List.length_cons] at hf ⊢
            rw [ih f' (by omega) t (by omega)]
        · simp only [subAllF, hm, if_neg h0]
          have hs : 1 ≤ s.length := by
            cases s with
            | nil => simp at hn; omega
            | cons c t => simp
          have hd : (s.drop n).length + 1 ≤ s.length := by
            simp only [List.length_drop]; omega
          rw [ih f' (by omega) (s.drop n) (by simp only [List.length_drop]; omega),
              ih s.length (by omega) (s.drop n) hd]

/-- The recursion equation of `subAll`, free of fuel. -/
theorem subAll_eq (r : Regex) (repl : Groups → Str) (s : Str) :
    subAll r repl s =
      match (rmatch r s).head? with
      | some (n, g) =>
        if n = 0 then
          match s with
          | [] => repl g
          | c :: t => repl g ++ c :: subAll r repl t
        else repl g ++ subAll r repl (s.drop n)
      | none =>
        match s with
        | [] => []
        | c :: t => c :: subAll r repl t := by
  show subAllF r repl (s.length + 1) s = _
  rcases hm : (rmatch r s).head? with _ | ⟨n, g⟩
  · simp only [subAllF, hm]
    cases s with
    | nil => rfl
    | cons c t => simp only [List.length_cons]; rfl
  · have hn := rmatch_head_le hm
    by_cases h0 : n = 0
    · subst h0
      simp only [subAllF, hm, eq_self_iff_true, if_true]
      cases s with
      | nil => rfl
      | cons c t => simp only [List.length_cons]; rfl
    · simp only [subAllF, hm, if_neg h0]
      have hs : 1 ≤ s.length := by
        cases s with
        | nil => simp at hn; omega
        | cons c t => simp
      have hd : (s.drop n).length + 1 ≤ s.length := by
        simp only [List.length_drop]; omega
      rw [subAllF_stable r repl s.length (s.drop n) hd]
      rfl

/-! ## Substring toolkit -/

/-- `containsS` decides substring containment. -/
theorem containsS_iff (needle : Str) :
    ∀ (s : Str), containsS needle s = true ↔ needle <:+: s := by
  intro s
  induction s with
  | nil =>
    simp only [containsS, List.isEmpty_iff, List.infix_nil]
  | cons c t ih =>
    simp only [containsS, Bool.or_eq_true, List.isPrefixOf_iff_prefix, ih,
      List.infix_cons_iff]

/-- Splitting a prefix of an append at the junction. -/
theorem prefix_append_split {l a b : Str} (h : l <+: a ++ b) :
    l <+: a ∨ ∃ l₂, l = a ++ l₂ ∧ l₂ <+: b := by
  by_cases hl : l.length ≤ a.length
  · left
    exact List.prefix_of_prefix_length_le h (List.prefix_append a b) hl
  · right
    have ha : a <+: l :=
      List.prefix_of_prefix_length_le (List.prefix_append a b) h (by omega)
    obtain ⟨l₂, rfl⟩ := ha
    refine ⟨l₂, rfl, ?_⟩
    obtain ⟨t, ht⟩ := h
    rw [List.append_assoc] at ht
    have := List.append_cancel_left ht
    exact ⟨t, this⟩

/-- Splitting an infix occurrence in an append: it lies in the left part,
in the right part, or straddles the junction. -/
theorem infix_append_cases {l a b : Str} (h : l <:+: a ++ b) :
    l <:+: a ∨ l <:+: b ∨
      ∃ l₁ l₂, l = l₁ ++ l₂ ∧ l₁ ≠ [] ∧ l₂ ≠ [] ∧ l₁ <:+ a ∧ l₂ <+: b := by
  induction a with
  | nil =>
    right; left; exact h
  | cons x a' ih =>
    rw [List.cons_append, List.infix_cons_iff] at h
    rcases h with hpre | hinf
    · rcases prefix_append_split (a := x :: a') (b := b) hpre with h1 | ⟨l₂, rfl, h2⟩
      · left; exact prefInf h1
      · by_cases hl2 : l₂ = []
        · subst hl2
          left
          simp only [List.append_nil]
          exact List.infix_refl (x :: a')
        · right; right
          exact ⟨x :: a', l₂, rfl, by simp, hl2, List.suffix_refl _, h2⟩
    · rcases ih hinf with h1 | h2 | ⟨l₁, l₂, rfl, hn1, hn2, hs, hp⟩
      · left; exact List.infix_cons h1
      · right; left; exact h2
      · right; right
        exact ⟨l₁, l₂, rfl, hn1, hn2, hs.trans (List.suffix_cons x a'), hp⟩

/-- A straddling occurrence forces the left part's last character to be a
character of the needle. -/
theorem no_straddle_last {l a b : Str} (hlast : ∀ c ∈ l, a.getLast? ≠ some c) :
    ¬ ∃ l₁ l₂, l = l₁ ++ l₂ ∧ l₁ ≠ [] ∧ l₂ ≠ [] ∧ l₁ <:+ a ∧ l₂ <+: b := by
  rintro ⟨l₁, l₂, rfl, h1, h2, hs, hp⟩
  have hga : a.getLast? = l₁.getLast? := by
    obtain ⟨u, rfl⟩ := hs
    rw [List.getLast?_append]
    cases hgl : l₁.getLast? with
    | none => exact absurd (List.getLast?_eq_none_iff.mp hgl) h1
    | some c => simp [hgl]
  cases hgl : l₁.getLast? with
  | none => exact absurd (List.getLast?_eq_none_iff.mp hgl) h1
  | some c =>
    have hc : c ∈ l₁ ++ l₂ := List.mem_append_left _ (List.mem_of_getLast?_eq_some hgl)
    exact hlast c hc (by rw [hga, hgl])

/-- No occurrence of `l` anywhere in `a ++ b` when it occurs in neither
part and cannot straddle the junction (the last character of `a` is not a
character of `l`). -/
theorem not_infix_append {l a b : Str}
    (ha : ¬ l <:+: a) (hb : ¬ l <:+: b)
    (hlast : ∀ c ∈ l, a.getLast? ≠ some c) : ¬ l <:+: a ++ b := by
  intro h
  rcases infix_append_cases h with h1 | h2 | h3
  · exact ha h1
  · exact hb h2
  · exact no_straddle_last hlast h3

/-- If `l` does not occur in `pre` and cannot straddle out of it (its
characters avoid `pre`'s last character), then `l` is not a prefix of any
nonempty suffix of `pre` extended by anything. -/
theorem not_prefix_sufApp {l pre rest t : Str} (ht : t <:+ pre) (htne : t ≠ [])
    (hinf : ¬ l <:+: pre) (hlast : ∀ c ∈ l, pre.getLast? ≠ some c) :
    ¬ l <+: t ++ rest := by
  intro hp
  by_cases hl : l.length ≤ t.length
  · have hlt : l <+: t :=
      List.prefix_of_prefix_length_le hp (List.prefix_append t rest) hl
    exact hinf ((prefInf hlt).trans (sufInf ht))
  · have htl : t <+: l :=
      List.prefix_of_prefix_length_le (List.prefix_append t rest) hp (by omega)
    have hga : pre.getLast? = t.getLast? := by
      obtain ⟨u, rfl⟩ := ht
      rw [List.getLast?_append]
      cases hgl : t.getLast? with
      | none => exact absurd (List.getLast?_eq_none_iff.mp hgl) htne
      | some c => simp [hgl]
    cases hgl : t.getLast? with
    | none => exact absurd (List.getLast?_eq_none_iff.mp hgl) htne
    | some c =>
      have hc : c ∈ l := htl.subset (List.mem_of_getLast?_eq_some hgl)
      exact hlast c hc (by rw [hga, hgl])

/-- Variant blocking the straddle by the first character of `rest`. -/
theorem not_prefix_sufApp2 {l pre rest t : Str} (ht : t <:+ pre) (_htne : t ≠ [])
    (hinf : ¬ l <:+: pre) (hhead : ∀ c ∈ l, rest.head? ≠ some c) :
    ¬ l <+: t ++ rest := by
  intro hp
  by_cases hl : l.length ≤ t.length
  · have hlt : l <+: t :=
      List.prefix_of_prefix_length_le hp (List.prefix_append t rest) hl
    exact hinf ((prefInf hlt).trans (sufInf ht))
  · have htl : t <+: l :=
      List.prefix_of_prefix_length_le (List.prefix_append t rest) hp (by omega)
    obtain ⟨l₂, rfl⟩ := htl
    have h2 : l₂ <+: rest := by
      obtain ⟨u, hu⟩ := hp
      rw [List.append_assoc] at hu
      exact ⟨u, List.append_cancel_left hu⟩
    have hne2 : l₂ ≠ [] := by
      intro hnil
      subst hnil
      simp at hl
    cases hl2 : l₂.head? with
    | none => exact absurd (List.head?_eq_none_iff.mp hl2) hne2
    | some c =>
      have hc : c ∈ t ++ l₂ := List.mem_append_right _ (List.mem_of_mem_head? hl2)
      have : rest.head? = some c := by
        obtain ⟨u, rfl⟩ := h2
        rw [List.head?_append, hl2]
        rfl
      exact hhead c hc this

/-! ## `countSub` lemmas -/

/-- `countSubF` is stable once the fuel reaches `length + 1`. -/
theorem countSubF_stable (needle : Str) (hne : needle ≠ []) :
    ∀ (f : Nat) (s : Str), s.length + 1 ≤ f →
      countSubF needle f s = countSubF needle (s.length + 1) s := by
  intro f
  induction f using Nat.strong_induction_on with
  | _ f ih =>
    intro s hf
    cases f with
    | zero => omega
    | succ f' =>
      by_cases hp : needle.isPrefixOf s
      · simp only [countSubF, if_pos hp]
        have hlen : needle.length ≤ s.length :=
          List.IsPrefix.length_le (List.isPrefixOf_iff_prefix.mp hp)
        have h1 : 1 ≤ needle.length := by
          cases needle with
          | nil => exact absurd rfl hne
          | cons a b => simp
        rw [ih f' (by omega) (s.drop needle.length)
              (by simp only [List.length_drop]; omega),
            ih s.length (by omega) (s.drop needle.length)
              (by simp only [List.length_drop]; omega)]
      · simp only [countSubF, if_neg hp]
        cases s with
        | nil => rfl
        | cons c t =>
          simp only [List.length_cons] at hf ⊢
          rw [ih f' (by omega) t (by omega)]

/-- The recursion equation of `countSub`, free of fuel. -/
theorem countSub_eq (needle : Str) (hne : needle ≠ []) (s : Str) :
    countSub needle s =
      if needle.isPrefixOf s then 1 + countSub needle (s.drop needle.length)
      else
        match s with
        | [] => 0
        | _ :: t => countSub needle t := by
  rw [countSub, if_neg hne]
  by_cases hp : needle.isPrefixOf s
  · simp only [countSubF, if_pos hp]
    rw [countSub, if_neg hne]
    have hlen : needle.length ≤ s.length :=
      List.IsPrefix.length_le (List.isPrefixOf_iff_prefix.mp hp)
    have h1 : 1 ≤ needle.length := by
      cases needle with
      | nil => exact absurd rfl hne
      | cons a b => simp
    rw [countSubF_stable needle hne s.length (s.drop needle.length)
          (by simp only [List.length_drop]; omega)]
  · simp only [countSubF, if_neg hp]
    cases s with
    | nil => rfl
    | cons c t =>
      simp only [List.length_cons]
      rw [countSub, if_neg hne]

/-- A string with no occurrence of the needle counts zero. -/
theorem countSub_zero (needle : Str) (hne : needle ≠ []) :
    ∀ (s : Str), ¬ needle <:+: s → countSub needle s = 0 := by
  intro s
  induction s with
  | nil =>
    intro h
    rw [countSub_eq needle hne]
    rw [if_neg]
    intro hp
    exact h (prefInf (List.isPrefixOf_iff_prefix.mp hp))
  | cons c t ih =>
    intro h
    rw [countSub_eq needle hne]
    rw [if_neg]
    · exact ih (fun hi => h (List.infix_cons hi))
    · intro hp
      exact h (prefInf (List.isPrefixOf_iff_prefix.mp hp))

/-- Counting after an occurrence at the very front. -/
theorem countSub_front (needle rest : Str) (hne : needle ≠ []) :
    countSub needle (needle ++ rest) = 1 + countSub needle rest := by
  rw [countSub_eq needle hne]
  rw [if_pos (List.isPrefixOf_iff_prefix.mpr (List.prefix_append needle rest))]
  rw [List.drop_left]

/-- A region with no occurrence starting inside it contributes nothing to
the count. -/
theorem countSub_append_skip (needle : Str) (hne : needle ≠ []) :
    ∀ (pre rest : Str),
      (∀ t, t <:+ pre → t ≠ [] → ¬ needle <+: (t ++ rest)) →
      countSub needle (pre ++ rest) = countSub needle rest := by
  intro pre
  induction pre with
  | nil => intro rest _; rfl
  | cons c p ih =>
    intro rest h
    rw [countSub_eq needle hne]
    have hnp : ¬ needle.isPrefixOf (c :: p ++ rest) := by
      rw [List.isPrefixOf_iff_prefix]
      exact h (c :: p) (List.suffix_refl _) (by simp)
    rw [if_neg hnp]
    exact ih rest (fun t ht htne => h t (ht.trans (List.suffix_cons c p)) htne)

/-! ## `subAll` structure lemmas -/

/-- A region in which no match starts is copied verbatim by `re.sub`. -/
theorem subAll_append_skip (r : Regex) (repl : Groups → Str) :
    ∀ (pre rest : Str),
      (∀ t, t <:+ pre → t ≠ [] → rmatch r (t ++ rest) = []) →
      subAll r repl (pre ++ rest) = pre ++ subAll r repl rest := by
  intro pre
  induction pre with
  | nil => intro rest _; rfl
  | cons c p ih =>
    intro rest h
    rw [subAll_eq]
    have hm : rmatch r (c :: p ++ rest) = [] := h _ (List.suffix_refl _) (by simp)
    rw [hm]
    show c :: subAll r repl (p ++ rest) = c :: p ++ subAll r repl rest
    rw [ih rest (fun t ht htne => h t (ht.trans (List.suffix_cons c p)) htne)]
    rfl

/-- `re.sub` is the identity when no suffix admits a match. -/
theorem subAll_id (r : Regex) (repl : Groups → Str) :
    ∀ (s : Str), (∀ t, t <:+ s → rmatch r t = []) → subAll r repl s = s := by
  intro s
  induction s with
  | nil =>
    intro h
    rw [subAll_eq, h [] (List.suffix_refl _)]
    rfl
  | cons c t ih =>
    intro h
    rw [subAll_eq, h _ (List.suffix_refl _)]
    show c :: subAll r repl t = c :: t
    rw [ih (fun u hu => h u (hu.trans (List.suffix_cons c t)))]

/-! ## Pattern analysis lemmas -/

/-- A pattern that syntactically starts with a literal only matches
strings starting with that literal. -/
theorem headLit_starts (r : Regex) :
    ∀ (l : Str), headLit r = some l → ∀ (s : Str), rmatch r s ≠ [] → l <+: s := by
  induction r with
  | eps => intro l hl; simp [headLit] at hl
  | ch p => intro l hl; simp [headLit] at hl
  | starCh p => intro l hl; simp [headLit] at hl
  | str l' =>
    intro l hl s hm
    simp only [headLit, Option.some.injEq] at hl
    subst hl
    simp only [rmatch] at hm
    split at hm
    case isTrue hp => exact List.isPrefixOf_iff_prefix.mp hp
    case isFalse => simp at hm
  | seq a b iha ihb =>
    intro l hl s hm
    simp only [headLit] at hl
    have hne : rmatch a s ≠ [] := by
      intro h0
      exact hm (by simp [rmatch, h0])
    exact iha l hl s hne
  | group i r ih =>
    intro l hl s hm
    simp only [headLit] at hl
    have hne : rmatch r s ≠ [] := by
      intro h0
      exact hm (by simp [rmatch, h0])
    exact ih l hl s hne

/-- Any successful match contains each top-level literal of the pattern
as a substring of the input. -/
theorem litsOf_required (r : Regex) :
    ∀ (l : Str), l ∈ litsOf r → ∀ (s : Str), rmatch r s ≠ [] → l <:+: s := by
  induction r with
  | eps => intro l hl; simp [litsOf] at hl
  | ch p => intro l hl; simp [litsOf] at hl
  | starCh p => intro l hl; simp [litsOf] at hl
  | str l' =>
    intro l hl s hm
    simp only [litsOf, List.mem_singleton] at hl
    subst hl
    simp only [rmatch] at hm
    split at hm
    case isTrue hp => exact prefInf (List.isPrefixOf_iff_prefix.mp hp)
    case isFalse => simp at hm
  | seq a b iha ihb =>
    intro l hl s hm
    simp only [litsOf, List.mem_append] at hl
    have hne : rmatch a s ≠ [] := by
      intro h0
      exact hm (by simp [rmatch, h0])
    rcases hl with hla | hlb
    · exact iha l hla s hne
    · simp only [rmatch, ne_eq, List.flatMap_eq_nil_iff, not_forall] at hm
      obtain ⟨pa, hpa, hmap⟩ := hm
      have hbne : rmatch b (s.drop pa.1) ≠ [] := by
        intro h0
        exact hmap (by simp [h0])
      have := ihb l hlb (s.drop pa.1) hbne
      exact this.trans (sufInf (List.drop_suffix pa.1 s))
  | group i r ih =>
    intro l hl s hm
    simp only [litsOf] at hl
    have hne : rmatch r s ≠ [] := by
      intro h0
      exact hm (by simp [rmatch, h0])
    exact ih l hl s hne

/-! ## Instrumented matcher lemmas -/

/-- The instrumented matcher agrees with `rmatch`, and when its flag is
clear the match list is unchanged by appending further input. -/
theorem rmatchI_spec (r : Regex) :
    ∀ (s : Str), (rmatchI r s).1 = rmatch r s ∧
      ((rmatchI r s).2 = false → ∀ t, rmatch r (s ++ t) = rmatch r s) := by
  induction r with
  | eps =>
    intro s
    exact ⟨rfl, fun _ _ => rfl⟩
  | ch p =>
    intro s
    cases s with
    | nil => exact ⟨rfl, fun h => by simp [rmatchI] at h⟩
    | cons c u => exact ⟨rfl, fun _ _ => rfl⟩
  | str l =>
    intro s
    constructor
    · rfl
    · intro h t
      simp only [rmatchI, Bool.and_eq_false_iff, decide_eq_false_iff_not,
        Bool.not_eq_true] at h
      by_cases hp : l.isPrefixOf s
      · have hp' : l <+: s := List.isPrefixOf_iff_prefix.mp hp
        have hp2 : l <+: s ++ t := hp'.trans (List.prefix_append s t)
        simp only [rmatch]
        rw [if_pos hp, if_pos (List.isPrefixOf_iff_prefix.mpr hp2)]
      · have hnp2 : ¬ l.isPrefixOf (s ++ t) := by
          rw [List.isPrefixOf_iff_prefix]
          intro hpt
          by_cases hl : l.length ≤ s.length
          · exact hp (List.isPrefixOf_iff_prefix.mpr
              (List.prefix_of_prefix_length_le hpt (List.prefix_append s t) hl))
          · have hsl : s <+: l :=
              List.prefix_of_prefix_length_le (List.prefix_append s t) hpt (by omega)
            rcases h with h1 | h2
            · omega
            · have hsl2 := List.isPrefixOf_iff_prefix.mpr hsl
              rw [h2] at hsl2
              simp at hsl2
        simp only [rmatch, if_neg hp, if_neg hnp2]
  | seq a b iha ihb =>
    intro s
    have hfa : (fun pr : Nat × Groups =>
        ((rmatchI b (s.drop pr.1)).1).map (fun q => (pr.1 + q.1, pr.2 ++ q.2))) =
        (fun pr : Nat × Groups =>
          (rmatch b (s.drop pr.1)).map (fun q => (pr.1 + q.1, pr.2 ++ q.2))) := by
      funext pr
      rw [(ihb (s.drop pr.1)).1]
    constructor
    · simp only [rmatchI, rmatch, (iha s).1, hfa]
    · intro h t
      simp only [rmatchI, Bool.or_eq_false_iff] at h
      obtain ⟨ha2, hany⟩ := h
      have hat : rmatch a (s ++ t) = rmatch a s := (iha s).2 ha2 t
      rw [List.any_eq_false] at hany
      simp only [rmatch, hat]
      rw [List.flatMap_def, List.flatMap_def]
      apply congrArg
      apply List.map_congr_left
      intro pr hpr
      have hle : pr.1 ≤ s.length := rmatch_le a s pr hpr
      rw [List.drop_append_of_le_length hle]
      have hprI : pr ∈ (rmatchI a s).1 := by rw [(iha s).1]; exact hpr
      have hbflag : (rmatchI b (s.drop pr.1)).2 = false := by
        have := hany pr hprI
        simpa using this
      rw [(ihb (s.drop pr.1)).2 hbflag t]
  | starCh p =>
    intro s
    constructor
    · rfl
    · intro h t
      simp only [rmatchI, beq_eq_false_iff_ne, ne_eq] at h
      have : (s ++ t).takeWhile p = s.takeWhile p := by
        rw [List.takeWhile_append, if_neg h]
      simp only [rmatch, this]
  | group i r ih =>
    intro s
    constructor
    · simp only [rmatchI, rmatch, (ih s).1]
    · intro h t
      simp only [rmatchI] at h
      have hrt : rmatch r (s ++ t) = rmatch r s := (ih s).2 h t
      simp only [rmatch, hrt]
      apply List.map_congr_left
      intro pr hpr
      have hle : pr.1 ≤ s.length := rmatch_le r s pr hpr
      rw [List.take_append_of_le_length hle]

/-- When the instrumented matcher reports an untouched end, match lists
are insensitive to appended input. -/
theorem rmatch_append_of_untouched {r : Regex} {s : Str}
    (h : (rmatchI r s).2 = false) (t : Str) :
    rmatch r (s ++ t) = rmatch r s :=
  (rmatchI_spec r s).2 h t

/-! ## Character-preservation and split/join lemmas -/

/-- `re.sub` introduces no character that is absent from both the input
and every replacement. -/
theorem subAll_not_mem (r : Regex) (repl : Groups → Str) (c : Char)
    (hrepl : ∀ g, c ∉ repl g) :
    ∀ (n : Nat) (s : Str), s.length ≤ n → c ∉ s → c ∉ subAll r repl s := by
  intro n
  induction n with
  | zero =>
    intro s hlen hcs
    have : s = [] := List.length_eq_zero.mp (by omega)
    subst this
    rw [subAll_eq]
    rcases hm : (rmatch r ([] : Str)).head? with _ | ⟨k, g⟩
    · simp
    · have hk := rmatch_head_le hm
      simp only [List.length_nil] at hk
      have : k = 0 := by omega
      subst this
      simp only [if_pos rfl]
      exact hrepl g
  | succ n ih =>
    intro s hlen hcs
    rw [subAll_eq]
    rcases hm : (rmatch r s).head? with _ | ⟨k, g⟩
    · cases s with
      | nil => simp
      | cons c' t =>
        simp only [List.mem_cons, not_or] at hcs ⊢
        exact ⟨hcs.1, ih t (by simp at hlen; omega) hcs.2⟩
    · have hk := rmatch_head_le hm
      by_cases h0 : k = 0
      · subst h0
        simp only [if_pos rfl]
        cases s with
        | nil => exact hrepl g
        | cons c' t =>
          simp only [List.mem_cons, not_or] at hcs
          intro hmem
          rcases List.mem_append.mp hmem with h1 | h2
          · exact hrepl g h1
          · rcases List.mem_cons.mp h2 with h3 | h4
            · exact hcs.1 h3
            · exact ih t (by simp at hlen; omega) hcs.2 h4
      · simp only [if_neg h0]
        intro hmem
        rcases List.mem_append.mp hmem with h1 | h2
        · exact hrepl g h1
        · have hs1 : 1 ≤ s.length := by
            cases s with
            | nil => simp at hk; omega
            | cons c' t => simp
          have hd : (s.drop k).length ≤ n := by
            simp only [List.length_drop]; omega
          exact ih (s.drop k) hd
            (fun hmem2 => hcs (List.drop_subset k s hmem2)) h2

/-- Pieces produced by `splitChar` never contain the separator. -/
theorem splitChar_not_mem (sep : Char) :
    ∀ (s : Str), ∀ l ∈ splitChar sep s, sep ∉ l := by
  intro s
  induction s with
  | nil =>
    intro l hl
    simp only [splitChar, List.mem_singleton] at hl
    subst hl; simp
  | cons c t ih =>
    intro l hl
    simp only [splitChar] at hl
    by_cases hc : c = sep
    · rw [if_pos hc] at hl
      rcases List.mem_cons.mp hl with h1 | h2
      · subst h1; simp
      · exact ih l h2
    · rw [if_neg hc] at hl
      rcases hr : splitChar sep t with _ | ⟨h0, t0⟩
      · rw [hr] at hl
        simp only [List.mem_singleton] at hl
        subst hl
        simp only [List.mem_singleton]
        intro he
        exact hc he.symm
      · rw [hr] at hl
        rcases List.mem_cons.mp hl with h1 | h2
        · subst h1
          simp only [List.mem_cons, not_or]
          refine ⟨fun he => hc he.symm, ?_⟩
          have := ih h0 (by rw [hr]; exact List.mem_cons_self h0 t0)
          exact this
        · exact ih l (by rw [hr]; exact List.mem_cons_of_mem h0 h2)

/-- `splitChar` never returns the empty list of pieces. -/
theorem splitChar_ne_nil (sep : Char) :
    ∀ (s : Str), splitChar sep s ≠ [] := by
  intro s
  induction s with
  | nil => simp [splitChar]
  | cons c t ih =>
    simp only [splitChar]
    by_cases hc : c = sep
    · rw [if_pos hc]; simp
    · rw [if_neg hc]
      rcases hr : splitChar sep t with _ | ⟨h0, t0⟩
      · simp
      · simp

/-- Joining pieces that avoid the separator and splitting again is the
identity. -/
theorem splitChar_joinChar (sep : Char) :
    ∀ (ls : List Str), ls ≠ [] → (∀ l ∈ ls, sep ∉ l) →
      splitChar sep (joinChar sep ls) = ls := by
  intro ls
  induction ls with
  | nil => intro h; exact absurd rfl h
  | cons x ys ih =>
    intro hne hsep
    clear hne
    cases ys with
    | nil =>
      show splitChar sep x = [x]
      have hx : sep ∉ x := hsep x (List.mem_cons_self x [])
      clear hsep ih
      induction x with
      | nil => rfl
      | cons c u ihx =>
        simp only [List.mem_cons, not_or] at hx
        simp only [splitChar]
        rw [if_neg (fun he => hx.1 he.symm)]
        rw [ihx hx.2]
    | cons y zs =>
      show splitChar sep (x ++ sep :: joinChar sep (y :: zs)) = x :: y :: zs
      have hx : sep ∉ x := hsep x (List.mem_cons_self x _)
      have htail : splitChar sep (joinChar sep (y :: zs)) = y :: zs :=
        ih (by simp) (fun l hl => hsep l (List.mem_cons_of_mem x hl))
      clear hsep ih
      induction x with
      | nil =>
        show splitChar sep (sep :: joinChar sep (y :: zs)) = [] :: y :: zs
        simp only [splitChar, eq_self_iff_true, if_true, htail]
      | cons c u ihx =>
        simp only [List.mem_cons, not_or] at hx
        simp only [List.cons_append, splitChar]
        rw [if_neg (fun he => hx.1 he.symm)]
        simp only [List.append_eq]
        rw [ihx hx.2]

/-! ## Filesystem lemmas -/

/-- Reading back a fresh write. -/
theorem fsread_fswrite_self :
    ∀ (fs : FS) (p v : Str), fsread (fswrite fs p v) p = some v := by
  intro fs
  induction fs with
  | nil =>
    intro p v
    simp [fswrite, fsread, List.find?]
  | cons e rest ih =>
    intro p v
    by_cases he : e.1 == p
    · simp only [fswrite, if_pos he, fsread, List.find?]
      simp
    · simp only [fswrite, if_neg he, fsread, List.find?, he]
      exact ih p v

/-- Writes to one path leave the others untouched. -/
theorem fsread_fswrite_other :
    ∀ (fs : FS) (p v p' : Str), p' ≠ p → fsread (fswrite fs p v) p' = fsread fs p' := by
  intro fs
  induction fs with
  | nil =>
    intro p v p' hne
    simp only [fswrite, fsread, List.find?]
    have : (p == p') = false := by
      rw [beq_eq_false_iff_ne]
      exact fun h => hne h.symm
    simp [this]
  | cons e rest ih =>
    intro p v p' hne
    by_cases he : e.1 == p
    · simp only [fswrite, if_pos he, fsread, List.find?]
      have h1 : (p == p') = false := by
        rw [beq_eq_false_iff_ne]
        exact fun h => hne h.symm
      have h2 : (e.1 == p') = false := by
        rw [beq_eq_false_iff_ne]
        intro h
        exact hne (h.symm.trans (eq_of_beq he))
      simp [h1, h2]
    · simp only [fswrite, if_neg he, fsread, List.find?]
      by_cases he' : e.1 == p'
      · simp [he']
      · simp only [he', Bool.false_eq_true, if_neg]
        exact ih p v p' hne

/-- `fixStep` on a missing path does nothing. -/
theorem fixStep_none {proc : Str → Str × Bool} {fs : FS} {p : Str}
    (h : fsread fs p = none) : fixStep proc fs p = fs := by
  simp [fixStep, h]

/-- `fixStep` on an existing path: write or skip as the body says. -/
theorem fixStep_some {proc : Str → Str × Bool} {fs : FS} {p c : Str}
    (h : fsread fs p = some c) :
    fixStep proc fs p = if (proc c).2 then fswrite fs p (proc c).1 else fs := by
  simp [fixStep, h]

/-- `fixStep` leaves other paths untouched. -/
theorem fsread_fixStep_other {proc : Str → Str × Bool} (fs : FS) (q p : Str)
    (hne : p ≠ q) : fsread (fixStep proc fs q) p = fsread fs p := by
  rcases hq : fsread fs q with _ | c
  · rw [fixStep_none hq]
  · rw [fixStep_some hq]
    by_cases hw : (proc c).2
    · rw [if_pos hw]
      exact fsread_fswrite_other fs q (proc c).1 p hne
    · rw [if_neg hw]

/-- A fixer loop never touches a path outside its file list. -/
theorem runFiles_frame (proc : Str → Str × Bool) :
    ∀ (files : List Str) (fs : FS) (p : Str), p ∉ files →
      fsread (runFiles proc files fs) p = fsread fs p := by
  intro files
  induction files with
  | nil => intro fs p _; rfl
  | cons q rest ih =>
    intro fs p hp
    simp only [List.mem_cons, not_or] at hp
    show fsread (runFiles proc rest (fixStep proc fs q)) p = _
    rw [ih _ p hp.2]
    exact fsread_fixStep_other fs q p hp.1

/-- What a fixer loop leaves at a listed path that exists: the per-file
body's output if it reported a change, the original content otherwise. -/
theorem runFiles_read (proc : Str → Str × Bool) :
    ∀ (files : List Str) (fs : FS) (p c : Str),
      files.Nodup → p ∈ files → fsread fs p = some c →
      fsread (runFiles proc files fs) p =
        some (if (proc c).2 then (proc c).1 else c) := by
  intro files
  induction files with
  | nil =>
    intro fs p c _ hmem
    simp at hmem
  | cons q rest ih =>
    intro fs p c hnd hmem hread
    have hnd' : rest.Nodup := (List.nodup_cons.mp hnd).2
    have hqns : q ∉ rest := (List.nodup_cons.mp hnd).1
    rcases List.mem_cons.mp hmem with rfl | hmem'
    · show fsread (runFiles proc rest (fixStep proc fs p)) p = _
      rw [runFiles_frame proc rest _ p hqns, fixStep_some hread]
      by_cases hw : (proc c).2
      · rw [if_pos hw, if_pos hw]
        exact fsread_fswrite_self fs p (proc c).1
      · rw [if_neg hw, if_neg hw]
        exact hread
    · have hpq : p ≠ q := fun h => hqns (h ▸ hmem')
      show fsread (runFiles proc rest (fixStep proc fs q)) p = _
      refine ih _ p c hnd' hmem' ?_
      rw [fsread_fixStep_other fs q p hpq]
      exact hread

/-! ## Head-of-match composition lemmas -/

/-- A literal matches its own extension. -/
theorem rmatch_str_self (l rest : Str) :
    rmatch (.str l) (l ++ rest) = [(l.length, [])] := by
  simp [rmatch, List.isPrefixOf_iff_prefix.mpr (List.prefix_append l rest)]

/-- Composing after a pattern with a unique match. -/
theorem rmatch_seq_single {a : Regex} (b : Regex) {s : Str} {n : Nat} {g : Groups}
    (ha : rmatch a s = [(n, g)]) :
    rmatch (.seq a b) s =
      (rmatch b (s.drop n)).map (fun q => (n + q.1, g ++ q.2)) := by
  simp [rmatch, ha]

/-- The head of a `flatMap` whose first image is nonempty. -/
theorem head?_flatMap {α β : Type} {f : α → List β} {x : α} {xs : List α}
    (h : f x ≠ []) : ((x :: xs).flatMap f).head? = (f x).head? := by
  rw [List.flatMap_cons, List.head?_append]
  cases hfx : (f x).head? with
  | none => exact absurd (List.head?_eq_none_iff.mp hfx) h
  | some b => rfl

/-- `takeWhile` stops exactly at the first failing character. -/
theorem takeWhile_append_stop (p : Char → Bool) :
    ∀ (xs : Str) (y : Char) (rest : Str), (∀ x ∈ xs, p x = true) → p y = false →
      (xs ++ y :: rest).takeWhile p = xs := by
  intro xs
  induction xs with
  | nil =>
    intro y rest _ hy
    simp [List.takeWhile_cons, hy]
  | cons x xs' ih =>
    intro y rest hall hy
    have hx : p x = true := hall x (List.mem_cons_self x xs')
    simp only [List.cons_append, List.takeWhile_cons, hx, if_true]
    rw [ih y rest (fun z hz => hall z (List.mem_cons_of_mem x hz)) hy]

/-- The greedy alternatives list starts with the full run. -/
theorem starLens_cons (m : Nat) :
    starLens m = m :: (List.range m).map (fun k => m - (k + 1)) := by
  simp only [starLens, List.range_succ_eq_map, List.map_cons, Nat.sub_zero,
    List.map_map]
  rfl

/-- The head match of a greedy `+` over a class followed by a
continuation, at an input that starts with the maximal run: the plus
consumes the whole run and the continuation takes over. -/
theorem rmatch_seq_plus_head {p : Char → Bool} (k : Regex) {run : Str} {y : Char}
    {rest : Str} (hrun : run ≠ []) (hall : ∀ x ∈ run, p x = true) (hy : p y = false)
    (hk : rmatch k (y :: rest) ≠ []) :
    (rmatch (.seq (plusC p) k) (run ++ y :: rest)).head? =
      ((rmatch k (y :: rest)).map (fun q => (run.length + q.1, q.2))).head? := by
  rcases run with _ | ⟨c0, run'⟩
  · exact absurd rfl hrun
  · have hc0 : p c0 = true := hall c0 (List.mem_cons_self c0 run')
    have hall' : ∀ x ∈ run', p x = true :=
      fun x hx => hall x (List.mem_cons_of_mem c0 hx)
    have htw : (run' ++ y :: rest).takeWhile p = run' :=
      takeWhile_append_stop p run' y rest hall' hy
    have hch : rmatch (.ch p) (c0 :: (run' ++ y :: rest)) = [(1, [])] := by
      simp [rmatch, hc0]
    have hplus : rmatch (plusC p) (c0 :: run' ++ y :: rest) =
        (starLens run'.length).map (fun n => (1 + n, ([] : Groups))) := by
      show rmatch (.seq (.ch p) (.starCh p)) (c0 :: (run' ++ y :: rest)) = _
      rw [rmatch_seq_single (.starCh p) hch]
      show ((starLens ((run' ++ y :: rest).takeWhile p).length).map
          (fun n => (n, ([] : Groups)))).map (fun q => (1 + q.1, [] ++ q.2)) = _
      rw [htw, List.map_map]
      rfl
    have hdrop : (c0 :: run' ++ y :: rest).drop (1 + run'.length) = y :: rest := by
      have h0 : c0 :: run' ++ y :: rest = (c0 :: run') ++ y :: rest := rfl
      have h1 : (1 : Nat) + run'.length = (c0 :: run').length := by
        simp [Nat.add_comm]
      rw [h0, h1, List.drop_left]
    have hseq : rmatch (.seq (plusC p) k) (c0 :: run' ++ y :: rest) =
        ((starLens run'.length).map (fun n => (1 + n, ([] : Groups)))).flatMap
          (fun pr => (rmatch k ((c0 :: run' ++ y :: rest).drop pr.1)).map
            (fun q => (pr.1 + q.1, pr.2 ++ q.2))) := by
      show (rmatch (plusC p) (c0 :: run' ++ y :: rest)).flatMap _ = _
      rw [hplus]
    rw [hseq, starLens_cons, List.map_cons]
    refine Eq.trans (head?_flatMap ?_) ?_
    · dsimp only
      rw [hdrop]
      intro hmap
      exact hk (List.map_eq_nil_iff.mp hmap)
    · dsimp only
      rw [hdrop, List.head?_map, List.head?_map]
      cases hh : (rmatch k (y :: rest)).head? with
      | none => rfl
      | some q =>
        simp only [Option.map_some', Option.some.injEq, Prod.mk.injEq,
          List.nil_append, List.length_cons]
        constructor
        · omega
        · trivial

/-! ## Claim theorems -/

/-- Claim C2: after the dashboard rewrite script runs, the content of the
target file `src/dashboard.ts` equals the hardcoded constant string
exactly, byte for byte, regardless of the file's prior content. -/
theorem C2_dashboard_rewrite (fs : FS) :
    fsread (runRefactor fs) dashboardPath = some (dashboardNewContent.toList) :=
  fsread_fswrite_self fs dashboardPath (dashboardNewContent.toList)

/-- Claim C9: for every content string, parameter name, and line number
strictly greater than the number of lines in the content,
`remove_parameter` returns the content unchanged, and the out-of-range
line index is never used. -/
theorem C9_remove_parameter_oob (content param : Str) (n : Nat)
    (h : (splitChar '\n' content).length < n) :
    remove_parameter content param n = content := by
  simp only [remove_parameter]
  rw [if_neg (by omega)]

/-- Witness for C9 at a concrete input: line number 5 of a 2-line file. -/
theorem C9_remove_parameter_oob_witness :
    remove_parameter (lit ("a\nb")) (lit ("x")) 5 = lit ("a\nb") :=
  C9_remove_parameter_oob (lit ("a\nb")) (lit ("x")) 5 (by decide)

/-- Claim C7: if parsing the lint output yields no unused items, `main`
writes no files and returns before invoking the test command; if at
least one item was collected, the test command is always run afterward. -/
theorem C7_main_short_circuit (lintOut : Str) (fs : FS) :
    (get_unused_items lintOut = [] → mainCleanup lintOut fs = (fs, false)) ∧
    (get_unused_items lintOut ≠ [] → (mainCleanup lintOut fs).2 = true) := by
  constructor
  · intro h
    simp [mainCleanup, h]
  · intro h
    rcases hu : get_unused_items lintOut with _ | ⟨e, es⟩
    · exact absurd hu h
    · simp [mainCleanup, hu]

/-- Witness for C7: an empty-result lint text short-circuits; a
recognised one reaches the test run. -/
theorem C7_main_short_circuit_witness :
    mainCleanup lintTmp [(lit ("/tmp/a.ts"), fileC1)] =
      ([(lit ("/tmp/a.ts"), fileC1)], false) ∧
    (mainCleanup lintUsers [(lit ("/Users/tmp/a.ts"), fileC1)]).2 = true :=
  ⟨(C7_main_short_circuit lintTmp [(lit ("/tmp/a.ts"), fileC1)]).1 (by decide),
   (C7_main_short_circuit lintUsers [(lit ("/Users/tmp/a.ts"), fileC1)]).2 (by decide)⟩

/-- Counterexample to claim C1 as stated: with the path line `/tmp/a.ts`
(as the claim words it), `get_unused_items` records nothing — it only
accepts `/Users...` path lines — so the file is not rewritten and no
symbol is removed, and the test command is never reached. -/
theorem C1_counterexample :
    get_unused_items lintTmp = [] ∧
    mainCleanup lintTmp [(lit ("/tmp/a.ts"), fileC1)] =
      ([(lit ("/tmp/a.ts"), fileC1)], false) := by
  constructor
  · decide
  · decide

/-- Claim C1 (amended): for lint output whose file-path line starts with
`/Users` — the only prefix `get_unused_items` recognises — listing one
unused symbol `foo` on line 3, and a source file for that path whose
line 3 contains `foo` inside a destructured import, the remover removes
`foo` from the file's import list and writes the file back (and then
runs the tests). -/
theorem C1_amended :
    get_unused_items lintUsers = [(lit ("/Users/tmp/a.ts"), [(3, lit ("foo"))])] ∧
    mainCleanup lintUsers [(lit ("/Users/tmp/a.ts"), fileC1)] =
      ([(lit ("/Users/tmp/a.ts"), fileC1out)], true) ∧
    containsS (lit ("foo")) fileC1 = true ∧
    containsS (lit ("foo")) fileC1out = false := by
  refine ⟨by decide, by decide, by decide, by decide⟩

/-- Counterexample to claim C5 as stated: on this file each run of the
WorkflowStepConfig fixer's transformation removes one more occurrence,
so the second run changes the content again and performs a write. -/
theorem C5_counterexample :
    stepSub (stepSub stepTwice) ≠ stepSub stepTwice ∧
    (stepProcess (stepProcess stepTwice).1).2 = true := by
  constructor
  · decide
  · decide

/-- Claim C5 (amended): a second run of either import fixer's
transformation makes no change (and performs no write) on any file whose
content after the first run no longer contains the removed symbol's
name; in general the transformations are not idempotent (see the
counterexample). -/
theorem C5_amended (c : Str) :
    (containsS (lit ("WorkflowStepConfig")) (stepSub c) = false →
      stepProcess (stepSub c) = (stepSub c, false)) ∧
    (containsS coordName ((coordProcess c).1) = false →
      coordProcess ((coordProcess c).1) = ((coordProcess c).1, false)) := by
  constructor
  · intro h
    have hni : ¬ (lit ("WorkflowStepConfig")) <:+: stepSub c := by
      intro hi
      rw [← containsS_iff] at hi
      rw [h] at hi
      exact Bool.false_ne_true hi
    have hid : stepSub (stepSub c) = stepSub c := by
      apply subAll_id
      intro t ht
      by_contra hne
      have hlit : (lit (", WorkflowStepConfig")) <:+: t :=
        litsOf_required stepPat (lit (", WorkflowStepConfig")) (by decide) t hne
      have hname : (lit ("WorkflowStepConfig")) <:+: (lit (", WorkflowStepConfig")) := by
        decide
      exact hni ((hname.trans hlit).trans (sufInf ht))
    simp [stepProcess, hid]
  · intro h
    generalize (coordProcess c).1 = r at h ⊢
    simp [coordProcess, h]

/-- Witness for C5 (amended) at concrete inputs whose first run removes
the symbol entirely. -/
theorem C5_amended_witness :
    stepProcess (stepSub stepLineIn) = (stepSub stepLineIn, false) ∧
    coordProcess ((coordProcess (coordLine '"' (lit ("./x")))).1) =
      ((coordProcess (coordLine '"' (lit ("./x")))).1, false) :=
  ⟨(C5_amended stepLineIn).1 (by decide),
   (C5_amended (coordLine '"' (lit ("./x")))).2 (by decide)⟩

/-- Claim C6: in the dead-code remover and in both import fixers, a file
is written back if and only if the transformed content differs from the
content originally read; when every substitution is a no-op the file on
disk is untouched. -/
theorem C6_write_iff_changed (fs : FS) (fp content : Str)
    (items : List (Nat × Str)) (h : fsread fs fp = some content) :
    cleanupFile fs fp items =
      (if cleanupContent content items = content then fs
       else fswrite fs fp (cleanupContent content items)) ∧
    ((stepProcess content).2 = true ↔ stepSub content ≠ content) ∧
    ((coordProcess content).2 = true ↔ (coordProcess content).1 ≠ content) ∧
    fixStep stepProcess fs fp =
      (if stepSub content = content then fs
       else fswrite fs fp (stepSub content)) ∧
    fixStep coordProcess fs fp =
      (if (coordProcess content).1 = content then fs
       else fswrite fs fp ((coordProcess content).1)) := by
  have hstep : (stepProcess content).2 = true ↔ stepSub content ≠ content := by
    by_cases hc : stepSub content = content
    · simp [stepProcess, hc]
    · simp [stepProcess, hc]
  have hstep1 : (stepProcess content).1 = stepSub content := by
    by_cases hc : stepSub content = content
    · simp [stepProcess, hc]
    · simp [stepProcess, hc]
  have hcoord : (coordProcess content).2 = true ↔ (coordProcess content).1 ≠ content := by
    by_cases h1 : containsS coordName content
    · by_cases h2 : (countSub coordName content == 1 && containsS coordClause content)
      · by_cases h3 : coordSub content = content
        · simp [coordProcess, h1, h2, h3]
        · simp [coordProcess, h1, h2, h3]
      · simp [coordProcess, h1, h2]
    · simp [coordProcess, h1]
  refine ⟨?_, hstep, hcoord, ?_, ?_⟩
  · simp only [cleanupFile, h]
  · rw [fixStep_some h]
    by_cases hc : stepSub content = content
    · rw [if_pos hc]
      have : (stepProcess content).2 = false := by
        rcases hb : (stepProcess content).2 with _ | _
        · rfl
        · exact absurd (hstep.mp hb) (by simpa using hc)
      rw [this]
      simp
    · rw [if_neg hc]
      have hb : (stepProcess content).2 = true := hstep.mpr hc
      rw [hb, if_pos rfl, hstep1]
  · rw [fixStep_some h]
    by_cases hc : (coordProcess content).1 = content
    · rw [if_pos hc]
      have : (coordProcess content).2 = false := by
        rcases hb : (coordProcess content).2 with _ | _
        · rfl
        · exact absurd (hcoord.mp hb) (by simpa using hc)
      rw [this]
      simp
    · rw [if_neg hc]
      have hb : (coordProcess content).2 = true := hcoord.mpr hc
      rw [hb, if_pos rfl]

/-- Witness for C6 at a concrete one-file filesystem whose content no
substitution changes. -/
theorem C6_write_iff_changed_witness :
    cleanupFile [(lit ("f.ts"), lit ("x"))] (lit ("f.ts")) [] =
      (if cleanupContent (lit ("x")) [] = lit ("x") then [(lit ("f.ts"), lit ("x"))]
       else fswrite [(lit ("f.ts"), lit ("x"))] (lit ("f.ts"))
         (cleanupContent (lit ("x")) [])) ∧
    ((stepProcess (lit ("x"))).2 = true ↔ stepSub (lit ("x")) ≠ lit ("x")) ∧
    ((coordProcess (lit ("x"))).2 = true ↔ (coordProcess (lit ("x"))).1 ≠ lit ("x")) ∧
    fixStep stepProcess [(lit ("f.ts"), lit ("x"))] (lit ("f.ts")) =
      (if stepSub (lit ("x")) = lit ("x") then [(lit ("f.ts"), lit ("x"))]
       else fswrite [(lit ("f.ts"), lit ("x"))] (lit ("f.ts")) (stepSub (lit ("x")))) ∧
    fixStep coordProcess [(lit ("f.ts"), lit ("x"))] (lit ("f.ts")) =
      (if (coordProcess (lit ("x"))).1 = lit ("x") then [(lit ("f.ts"), lit ("x"))]
       else fswrite [(lit ("f.ts"), lit ("x"))] (lit ("f.ts"))
         ((coordProcess (lit ("x"))).1)) :=
  C6_write_iff_changed [(lit ("f.ts"), lit ("x"))] (lit ("f.ts")) (lit ("x")) []
    (by decide)

/-- A non-path lint line is a no-op of the scanning loop while no current
file is set. -/
theorem processLines_cons_none (l : Str) (ls : List Str)
    (acc : List (Str × List (Nat × Str))) (hl : isPathLine l = false) :
    processLines (l :: ls) none acc = processLines ls none acc := by
  simp only [processLines, hl, Bool.false_eq_true, if_false]
  by_cases hc : (containsS (lit ("\x27")) l &&
      containsS (lit ("is defined but never used")) l)
  · rw [if_pos hc]
    rcases hs : searchG quotedSymPat l with _ | sym
    · rfl
    · rfl
  · rw [if_neg hc]

/-- Keys added by `dictAppend` are old keys or the appended key. -/
theorem dictAppend_keys (acc : List (Str × List (Nat × Str))) (k : Str)
    (v : Nat × Str) :
    ∀ x ∈ dictAppend acc k v, x.1 ∈ acc.map (fun e => e.1) ∨ x.1 = k := by
  intro x hx
  simp only [dictAppend] at hx
  split at hx
  · simp only [List.mem_map] at hx
    obtain ⟨e, he, hxe⟩ := hx
    by_cases hek : e.1 == k
    · rw [if_pos hek] at hxe
      subst hxe
      left
      exact List.mem_map.mpr ⟨e, he, rfl⟩
    · rw [if_neg hek] at hxe
      subst hxe
      left
      exact List.mem_map.mpr ⟨e, he, rfl⟩
  · rcases List.mem_append.mp hx with h1 | h2
    · left
      exact List.mem_map.mpr ⟨x, h1, rfl⟩
    · simp only [List.mem_singleton] at h2
      right
      rw [h2]

/-- Every key the scanning loop ever emits is an old key, the current
file, or the stripped form of a `/Users` path line in the input. -/
theorem processLines_keys :
    ∀ (ls : List Str) (cur : Option Str) (acc : List (Str × List (Nat × Str))),
      ∀ e ∈ processLines ls cur acc,
        e.1 ∈ acc.map (fun x => x.1) ∨ (∃ c, cur = some c ∧ e.1 = c) ∨
          ∃ l, l ∈ ls ∧ isPathLine l = true ∧ e.1 = stripPy l := by
  intro ls
  induction ls with
  | nil =>
    intro cur acc e he
    left
    exact List.mem_map.mpr ⟨e, he, rfl⟩
  | cons l ls ih =>
    intro cur acc e he
    have lift3 : (∃ l', l' ∈ ls ∧ isPathLine l' = true ∧ e.1 = stripPy l') →
        ∃ l', l' ∈ l :: ls ∧ isPathLine l' = true ∧ e.1 = stripPy l' := by
      rintro ⟨l', h1, h2, h3⟩
      exact ⟨l', List.mem_cons_of_mem l h1, h2, h3⟩
    by_cases hp : isPathLine l
    · simp only [processLines, hp, if_true] at he
      rcases ih (some (stripPy l)) acc e he with h1 | h2 | h3
      · exact Or.inl h1
      · obtain ⟨c, hc, hec⟩ := h2
        refine Or.inr (Or.inr ⟨l, List.mem_cons_self l ls, hp, ?_⟩)
        rw [hec]
        exact (Option.some_inj.mp hc).symm
      · exact Or.inr (Or.inr (lift3 h3))
    · simp only [processLines, hp, Bool.false_eq_true, if_false] at he
      by_cases hc : (containsS (lit ("\x27")) l &&
          containsS (lit ("is defined but never used")) l)
      · rw [if_pos hc] at he
        rcases hs : searchG quotedSymPat l with _ | sym
        · rw [hs] at he
          rcases ih cur acc e he with h1 | h2 | h3
          · exact Or.inl h1
          · exact Or.inr (Or.inl h2)
          · exact Or.inr (Or.inr (lift3 h3))
        · rw [hs] at he
          rcases cur with _ | cf
          · rcases ih none acc e he with h1 | h2 | h3
            · exact Or.inl h1
            · obtain ⟨c, hc2, _⟩ := h2
              simp at hc2
            · exact Or.inr (Or.inr (lift3 h3))
          · rcases hd : headMatchG lineNumPat l with _ | digits
            · rw [hd] at he
              rcases ih (some cf) acc e he with h1 | h2 | h3
              · exact Or.inl h1
              · exact Or.inr (Or.inl h2)
              · exact Or.inr (Or.inr (lift3 h3))
            · rw [hd] at he
              rcases ih (some cf) (dictAppend acc cf (digitsToNat digits, sym)) e he
                  with h1 | h2 | h3
              · simp only [List.mem_map] at h1
                obtain ⟨x, hx, hxe⟩ := h1
                rcases dictAppend_keys acc cf (digitsToNat digits, sym) x hx
                    with hk1 | hk2
                · left
                  rw [← hxe]
                  exact hk1
                · right; left
                  exact ⟨cf, rfl, by rw [← hxe, hk2]⟩
              · exact Or.inr (Or.inl h2)
              · exact Or.inr (Or.inr (lift3 h3))
      · rw [if_neg hc] at he
        rcases ih cur acc e he with h1 | h2 | h3
        · exact Or.inl h1
        · exact Or.inr (Or.inl h2)
        · exact Or.inr (Or.inr (lift3 h3))

/-- Claim C10: `get_unused_items` attributes a `defined but never used`
diagnostic to a file only if a `/Users` path line occurred earlier in the
lint output — every emitted key is the stripped form of such a line —
and diagnostic lines appearing before any path line are silently
dropped. -/
theorem C10_path_gating :
    (∀ (l1 l2 : List Str) (acc : List (Str × List (Nat × Str))),
        (∀ l ∈ l1, isPathLine l = false) →
        processLines (l1 ++ l2) none acc = processLines l2 none acc) ∧
    (∀ (out : Str) (e : Str × List (Nat × Str)), e ∈ get_unused_items out →
        ∃ l, l ∈ splitChar '\n' out ∧ isPathLine l = true ∧ e.1 = stripPy l) := by
  constructor
  · intro l1 l2 acc h
    induction l1 with
    | nil => rfl
    | cons l ls ih =>
      rw [List.cons_append,
        processLines_cons_none l _ acc (h l (List.mem_cons_self l ls))]
      exact ih (fun x hx => h x (List.mem_cons_of_mem l hx))
  · intro out e he
    rcases processLines_keys (splitChar '\n' out) none [] e he with h1 | h2 | h3
    · simp at h1
    · obtain ⟨c, hc, _⟩ := h2
      simp at hc
    · exact h3

/-- Witness for C10: a diagnostic line with no preceding path line is
dropped. -/
theorem C10_path_gating_witness :
    processLines [lit ("  3:1  \x27foo\x27 is defined but never used")] none [] =
      processLines [] none [] := by
  have h := C10_path_gating.1
    [lit ("  3:1  \x27foo\x27 is defined but never used")] [] [] (by decide)
  simpa using h

/-- The three line-local substitutions of `remove_parameter` introduce no
newline. -/
theorem rpLine_no_newline (param l : Str) (h : '\n' ∉ l) :
    '\n' ∉ rpLine param l := by
  have h1 : '\n' ∉ subAll (rpPat1 param) (fun _ => lit (",")) l :=
    subAll_not_mem _ _ '\n' (fun _ => by decide) l.length l (Nat.le_refl _) h
  have h2 : '\n' ∉ subAll (rpPat2 param) (fun _ => lit ("("))
      (subAll (rpPat1 param) (fun _ => lit (",")) l) :=
    subAll_not_mem _ _ '\n' (fun _ => by decide) _ _ (Nat.le_refl _) h1
  have h3 : '\n' ∉ subAll rpPat3 (fun _ => lit (": "))
      (subAll (rpPat2 param) (fun _ => lit ("("))
        (subAll (rpPat1 param) (fun _ => lit (",")) l)) :=
    subAll_not_mem _ _ '\n' (fun _ => by decide) _ _ (Nat.le_refl _) h2
  simpa only [rpLine] using h3

/-- Claim C8: for every content string and every line number within the
file's line count, `remove_parameter` changes at most the single line at
that line number; the line count is preserved and every other line of
the result is identical to the corresponding input line. -/
theorem C8_remove_parameter_frame (content param : Str) (n : Nat)
    (h1 : 1 ≤ n) (h2 : n ≤ (splitChar '\n' content).length) :
    (splitChar '\n' (remove_parameter content param n)).length =
      (splitChar '\n' content).length ∧
    ∀ i, i ≠ n - 1 →
      (splitChar '\n' (remove_parameter content param n))[i]? =
        (splitChar '\n' content)[i]? := by
  have hn0 : n ≠ 0 := by omega
  have hrp : remove_parameter content param n =
      joinChar '\n' ((splitChar '\n' content).set (n - 1)
        (rpLine param ((splitChar '\n' content).getD (n - 1) []))) := by
    simp only [remove_parameter, if_pos h2, if_neg hn0]
  have hlt : n - 1 < (splitChar '\n' content).length := by omega
  have hsep_lines : ∀ l ∈ splitChar '\n' content, '\n' ∉ l :=
    splitChar_not_mem '\n' content
  have hgetD : (splitChar '\n' content).getD (n - 1) [] =
      (splitChar '\n' content)[n - 1] := by
    simp [List.getD_eq_getElem?_getD, List.getElem?_eq_getElem hlt]
  have hsep_set : ∀ l ∈ (splitChar '\n' content).set (n - 1)
      (rpLine param ((splitChar '\n' content).getD (n - 1) [])), '\n' ∉ l := by
    intro l hl
    rcases List.mem_or_eq_of_mem_set hl with hmem | heq
    · exact hsep_lines l hmem
    · subst heq
      apply rpLine_no_newline
      rw [hgetD]
      exact hsep_lines _ (List.getElem_mem hlt)
  have hne_set : (splitChar '\n' content).set (n - 1)
      (rpLine param ((splitChar '\n' content).getD (n - 1) [])) ≠ [] := by
    intro h0
    have hls := congrArg List.length h0
    simp only [List.length_set, List.length_nil] at hls
    omega
  have hsplit : splitChar '\n' (remove_parameter content param n) =
      (splitChar '\n' content).set (n - 1)
        (rpLine param ((splitChar '\n' content).getD (n - 1) [])) := by
    rw [hrp]
    exact splitChar_joinChar '\n' _ hne_set hsep_set
  constructor
  · rw [hsplit, List.length_set]
  · intro i hi
    rw [hsplit]
    exact List.getElem?_set_ne (fun h => hi h.symm)

/-- Witness for C8: rewriting line 2 leaves lines 1 and 3 untouched. -/
theorem C8_remove_parameter_frame_witness :
    (splitChar '\n' (remove_parameter
        (lit ("a\nfunction f(x: number, y: string) \x7b\nb")) (lit ("y")) 2)).length =
      (splitChar '\n' (lit ("a\nfunction f(x: number, y: string) \x7b\nb"))).length ∧
    (splitChar '\n' (remove_parameter
        (lit ("a\nfunction f(x: number, y: string) \x7b\nb")) (lit ("y")) 2))[0]? =
      (splitChar '\n' (lit ("a\nfunction f(x: number, y: string) \x7b\nb")))[0]? ∧
    (splitChar '\n' (remove_parameter
        (lit ("a\nfunction f(x: number, y: string) \x7b\nb")) (lit ("y")) 2))[2]? =
      (splitChar '\n' (lit ("a\nfunction f(x: number, y: string) \x7b\nb")))[2]? :=
  ⟨(C8_remove_parameter_frame
      (lit ("a\nfunction f(x: number, y: string) \x7b\nb")) (lit ("y")) 2
      (by decide) (by decide)).1,
   (C8_remove_parameter_frame
      (lit ("a\nfunction f(x: number, y: string) \x7b\nb")) (lit ("y")) 2
      (by decide) (by decide)).2 0 (by decide),
   (C8_remove_parameter_frame
      (lit ("a\nfunction f(x: number, y: string) \x7b\nb")) (lit ("y")) 2
      (by decide) (by decide)).2 2 (by decide)⟩

/-- Claim C4: for an input file containing the line
`import { A, WorkflowStepConfig, B } from "../engine/WorkflowStep.js"` —
embedded as `pre ++ line ++ post` with the line separated by newlines,
no `import` text in `pre` and no other `WorkflowStepConfig` occurrence —
the output file contains `import { A, B } from
"../engine/WorkflowStep.js"` with no dangling comma, and the file is
written. -/
theorem C4_step_fixer (pre post : Str)
    (hpre_imp : ¬ (lit ("import")) <:+: pre)
    (hpre_last : pre = [] ∨ pre.getLast? = some '\n')
    (hpost : ¬ (lit ("WorkflowStepConfig")) <:+: post) :
    stepSub (pre ++ stepLineIn ++ post) = pre ++ stepLineOut ++ post ∧
    stepProcess (pre ++ stepLineIn ++ post) = (pre ++ stepLineOut ++ post, true) := by
  have hlast : ∀ c ∈ (lit ("import")), pre.getLast? ≠ some c := by
    intro c hc heq
    rcases hpre_last with h0 | h0
    · subst h0
      simp at heq
    · rw [h0] at heq
      have hcn : c = '\n' := (Option.some_inj.mp heq).symm
      subst hcn
      revert hc
      decide
  have hskip : ∀ t, t <:+ pre → t ≠ [] →
      rmatch stepPat (t ++ (stepLineIn ++ post)) = [] := by
    intro t ht htne
    by_contra hne
    exact not_prefix_sufApp ht htne hpre_imp hlast
      (headLit_starts stepPat (lit ("import")) rfl _ hne)
  have hhead : (rmatch stepPat (stepLineIn ++ post)).head? =
      some (stepLineIn.length, [(1, lit ("import \x7b A")),
        (2, lit (", B \x7d from \"../engine/WorkflowStep.js\""))]) := by
    rw [rmatch_append_of_untouched (by decide) post]
    decide
  have hpost_id : subAll stepPat stepRepl post = post := by
    apply subAll_id
    intro t ht
    by_contra hne
    have hlit := litsOf_required stepPat (lit (", WorkflowStepConfig")) (by decide) t hne
    have hname : (lit ("WorkflowStepConfig")) <:+: (lit (", WorkflowStepConfig")) := by
      decide
    exact hpost ((hname.trans hlit).trans (sufInf ht))
  have hmain : stepSub (pre ++ stepLineIn ++ post) = pre ++ stepLineOut ++ post := by
    show subAll stepPat stepRepl (pre ++ stepLineIn ++ post) = _
    rw [List.append_assoc,
      subAll_append_skip stepPat stepRepl pre (stepLineIn ++ post) hskip,
      subAll_eq, hhead]
    dsimp only
    rw [if_neg (by decide)]
    have hdrop : (stepLineIn ++ post).drop stepLineIn.length = post :=
      List.drop_left _ _
    rw [hdrop, hpost_id]
    have hrepl : stepRepl [(1, lit ("import \x7b A")),
        (2, lit (", B \x7d from \"../engine/WorkflowStep.js\""))] = stepLineOut := by
      decide
    rw [hrepl, ← List.append_assoc]
  refine ⟨hmain, ?_⟩
  have hne : pre ++ stepLineOut ++ post ≠ pre ++ stepLineIn ++ post := by
    intro h
    have hlen := congrArg List.length h
    simp only [List.length_append] at hlen
    have heq : stepLineOut.length = stepLineIn.length := by omega
    revert heq
    decide
  simp only [stepProcess, hmain]
  rw [if_neg hne]

/-- Witness for C4 at the bare line. -/
theorem C4_step_fixer_witness :
    stepSub ([] ++ stepLineIn ++ []) = [] ++ stepLineOut ++ [] ∧
    stepProcess ([] ++ stepLineIn ++ []) = ([] ++ stepLineOut ++ [], true) :=
  C4_step_fixer [] [] (by decide) (Or.inl rfl) (by decide)

/-- The coordinator import pattern matches a canonical import line at its
head, consuming exactly the line, for any quote style and any nonempty
quote-free module path. -/
theorem coordPatA_head (q : Char) (path post : Str)
    (hq : isQuoteC q = true)
    (hpath_ne : path ≠ [])
    (hpath_q : ∀ c ∈ path, isQuoteC c = false) :
    (rmatch coordPatA (coordLine q path ++ post)).head? =
      some ((coordLine q path).length, []) := by
  have hin : coordLine q path ++ post =
      coordLit ++ (q :: (path ++ (q :: (lit (";\n") ++ post)))) := by
    simp [coordLine, List.append_assoc]
  have hK3 : rmatch (.seq (.ch isQuoteC) (.str (lit (";\n"))))
      (q :: (lit (";\n") ++ post)) = [(1 + (lit (";\n")).length, [])] := by
    rw [rmatch_seq_single (.str (lit (";\n")))
      (show rmatch (.ch isQuoteC) (q :: (lit (";\n") ++ post)) = [(1, [])] by
        simp [rmatch, hq])]
    show ((rmatch (.str (lit (";\n"))) (lit (";\n") ++ post)).map _) = _
    rw [rmatch_str_self]
    rfl
  have hK2 : (rmatch (.seq (plusC (fun c => !isQuoteC c))
      (.seq (.ch isQuoteC) (.str (lit (";\n")))))
        (path ++ (q :: (lit (";\n") ++ post)))).head? =
      some (path.length + (1 + (lit (";\n")).length), []) := by
    rw [rmatch_seq_plus_head _ hpath_ne
      (fun x hx => by simp [hpath_q x hx])
      (by simp [hq])
      (by rw [hK3]; simp)]
    rw [hK3]
    rfl
  have hK1 : (rmatch (.seq (.ch isQuoteC) (.seq (plusC (fun c => !isQuoteC c))
      (.seq (.ch isQuoteC) (.str (lit (";\n"))))))
        (q :: (path ++ (q :: (lit (";\n") ++ post))))).head? =
      some (1 + (path.length + (1 + (lit (";\n")).length)), []) := by
    rw [rmatch_seq_single _
      (show rmatch (.ch isQuoteC)
          (q :: (path ++ (q :: (lit (";\n") ++ post)))) = [(1, [])] by
        simp [rmatch, hq])]
    show ((rmatch (.seq (plusC (fun c => !isQuoteC c))
        (.seq (.ch isQuoteC) (.str (lit (";\n")))))
          (path ++ (q :: (lit (";\n") ++ post)))).map
        (fun pr => (1 + pr.1, [] ++ pr.2))).head? = _
    rw [List.head?_map, hK2]
    rfl
  rw [hin]
  show (rmatch (.seq (.str coordLit) (.seq (.ch isQuoteC)
      (.seq (plusC (fun c => !isQuoteC c))
        (.seq (.ch isQuoteC) (.str (lit (";\n")))))))
        (coordLit ++ (q :: (path ++ (q :: (lit (";\n") ++ post)))))).head? = _
  rw [rmatch_seq_single _ (rmatch_str_self coordLit _), List.drop_left,
    List.head?_map, hK1]
  simp only [Option.map_some', Option.some.injEq, Prod.mk.injEq, List.nil_append]
  constructor
  · simp only [coordLine, List.length_append, List.length_cons]
    omega
  · trivial

/-- The canonical import line contributes exactly one occurrence of
`WorkflowCoordinator` to the whole file. -/
theorem coordName_count (pre path post : Str) (q : Char)
    (hq : isQuoteC q = true)
    (hpath_w : ¬ coordName <:+: path)
    (hpre_w : ¬ coordName <:+: pre)
    (hpost_w : ¬ coordName <:+: post)
    (hpre_last : pre = [] ∨ pre.getLast? = some '\n') :
    countSub coordName (pre ++ coordLine q path ++ post) = 1 := by
  have hq' : q = '\x27' ∨ q = '"' := by simpa [isQuoteC] using hq
  have hqname : q ∉ coordName := by
    rcases hq' with rfl | rfl
    · decide
    · decide
  have hne : coordName ≠ [] := by decide
  have hlastq : ∀ c ∈ coordName, ([q] : Str).getLast? ≠ some c := by
    intro c hc heq
    have hqc : q = c := by simpa using heq
    rw [← hqc] at hc
    exact hqname hc
  have hinfq : ¬ coordName <:+: ([q] : Str) := by
    intro hinf
    have hl19 : coordName.length = 19 := by decide
    have hle := hinf.length_le
    simp [hl19] at hle
  have hnorm : pre ++ coordLine q path ++ post =
      pre ++ ((lit ("import \x7b ")) ++ (coordName ++ ((lit (" \x7d from ")) ++
        ([q] ++ (path ++ ([q] ++ ((lit (";\n")) ++ post))))))) := by
    have hsplitLit : coordLit =
        (lit ("import \x7b ")) ++ (coordName ++ (lit (" \x7d from "))) := by decide
    simp [coordLine, hsplitLit, List.append_assoc]
  rw [hnorm]
  rw [countSub_append_skip coordName hne pre _
    (fun t ht htne => not_prefix_sufApp ht htne hpre_w
      (by
        intro c hc heq
        rcases hpre_last with h0 | h0
        · subst h0
          simp at heq
        · rw [h0] at heq
          have hcn : c = '\n' := (Option.some_inj.mp heq).symm
          subst hcn
          revert hc
          decide))]
  rw [countSub_append_skip coordName hne (lit ("import \x7b ")) _
    (fun t ht htne => not_prefix_sufApp ht htne (by decide) (by decide))]
  rw [countSub_front coordName _ hne]
  rw [countSub_append_skip coordName hne (lit (" \x7d from ")) _
    (fun t ht htne => not_prefix_sufApp ht htne (by decide) (by decide))]
  rw [countSub_append_skip coordName hne [q] _
    (fun t ht htne => not_prefix_sufApp ht htne hinfq hlastq)]
  rw [countSub_append_skip coordName hne path _
    (fun t ht htne => not_prefix_sufApp2 ht htne hpath_w
      (by
        intro c hc heq
        have hqc : q = c := by simpa using heq
        rw [← hqc] at hc
        exact hqname hc))]
  rw [countSub_append_skip coordName hne [q] _
    (fun t ht htne => not_prefix_sufApp ht htne hinfq hlastq)]
  rw [countSub_append_skip coordName hne (lit (";\n")) _
    (fun t ht htne => not_prefix_sufApp ht htne (by decide) (by decide))]
  rw [countSub_zero coordName hne post hpost_w]

/-- The symbol and the gating clause are both present in a file with a
canonical import line. -/
theorem coordName_in_line (pre path post : Str) (q : Char) :
    containsS coordName (pre ++ coordLine q path ++ post) = true ∧
    containsS coordClause (pre ++ coordLine q path ++ post) = true := by
  have hpref : coordLit <+: coordLine q path :=
    ⟨q :: (path ++ q :: lit (";\n")), rfl⟩
  have hline : coordLine q path <:+: pre ++ coordLine q path ++ post :=
    List.infix_append pre (coordLine q path) post
  constructor
  · rw [containsS_iff]
    exact (((show coordName <:+: coordLit by decide).trans
      (prefInf hpref))).trans hline
  · rw [containsS_iff]
    exact (((show coordClause <:+: coordLit by decide).trans
      (prefInf hpref))).trans hline

/-- The three substitutions of the coordinator fixer delete exactly the
canonical import line. -/
theorem coordSub_removes (pre path post : Str) (q : Char)
    (hq : isQuoteC q = true)
    (hpath_ne : path ≠ [])
    (hpath_q : ∀ c ∈ path, isQuoteC c = false)
    (hpre_w : ¬ coordName <:+: pre)
    (hpost_w : ¬ coordName <:+: post)
    (hpre_last : pre = [] ∨ pre.getLast? = some '\n') :
    coordSub (pre ++ coordLine q path ++ post) = pre ++ post := by
  have hlastname : ∀ c ∈ coordName, pre.getLast? ≠ some c := by
    intro c hc heq
    rcases hpre_last with h0 | h0
    · subst h0
      simp at heq
    · rw [h0] at heq
      have hcn : c = '\n' := (Option.some_inj.mp heq).symm
      subst hcn
      revert hc
      decide
  have hlastlit : ∀ c ∈ coordLit, pre.getLast? ≠ some c := by
    intro c hc heq
    rcases hpre_last with h0 | h0
    · subst h0
      simp at heq
    · rw [h0] at heq
      have hcn : c = '\n' := (Option.some_inj.mp heq).symm
      subst hcn
      revert hc
      decide
  have hpre_lit : ¬ coordLit <:+: pre := by
    intro h
    exact hpre_w ((show coordName <:+: coordLit by decide).trans h)
  have hskip : ∀ t, t <:+ pre → t ≠ [] →
      rmatch coordPatA (t ++ (coordLine q path ++ post)) = [] := by
    intro t ht htne
    by_contra hne
    exact not_prefix_sufApp ht htne hpre_lit hlastlit
      (headLit_starts coordPatA coordLit rfl _ hne)
  have hpost_id1 : subAll coordPatA (fun _ => []) post = post := by
    apply subAll_id
    intro t ht
    by_contra hne
    have hp := headLit_starts coordPatA coordLit rfl t hne
    exact hpost_w (((show coordName <:+: coordLit by decide).trans
      (prefInf hp)).trans (sufInf ht))
  have hlen0 : (coordLine q path).length ≠ 0 := by
    simp only [coordLine, List.length_append, List.length_cons]
    omega
  have h1 : subAll coordPatA (fun _ => []) (pre ++ coordLine q path ++ post) =
      pre ++ post := by
    rw [List.append_assoc, subAll_append_skip _ _ pre _ hskip, subAll_eq,
      coordPatA_head q path post hq hpath_ne hpath_q]
    dsimp only
    rw [if_neg hlen0, List.drop_left, hpost_id1, List.nil_append]
  have hnotin : ¬ coordName <:+: (pre ++ post) :=
    not_infix_append hpre_w hpost_w hlastname
  have h2 : subAll (.str (lit (", WorkflowCoordinator"))) (fun _ => [])
      (pre ++ post) = pre ++ post := by
    apply subAll_id
    intro t ht
    by_contra hne
    have hp := headLit_starts (.str (lit (", WorkflowCoordinator"))) _ rfl t hne
    exact hnotin (((show coordName <:+: lit (", WorkflowCoordinator") by decide).trans
      (prefInf hp)).trans (sufInf ht))
  have h3 : subAll (.str (lit ("WorkflowCoordinator, "))) (fun _ => [])
      (pre ++ post) = pre ++ post := by
    apply subAll_id
    intro t ht
    by_contra hne
    have hp := headLit_starts (.str (lit ("WorkflowCoordinator, "))) _ rfl t hne
    exact hnotin (((show coordName <:+: lit ("WorkflowCoordinator, ") by decide).trans
      (prefInf hp)).trans (sufInf ht))
  show subAll (.str (lit ("WorkflowCoordinator, "))) (fun _ => [])
      (subAll (.str (lit (", WorkflowCoordinator"))) (fun _ => [])
        (subAll coordPatA (fun _ => []) (pre ++ coordLine q path ++ post))) = _
  rw [h1, h2, h3]

/-- Claim C3 (amended): for every listed file whose content contains
`WorkflowCoordinator` exactly once, inside an import line of the exact
shape `import { WorkflowCoordinator } from <quote>path<quote>;` followed
by a newline (single spaces, nonempty quote-free module path), the
script removes the import line entirely; and every file in which
`WorkflowCoordinator` occurs two or more times is left unchanged. -/
theorem C3_coordinator_amended (fs : FS) (p pre path post : Str) (q : Char)
    (hq : isQuoteC q = true)
    (hpath_ne : path ≠ [])
    (hpath_q : ∀ c ∈ path, isQuoteC c = false)
    (hpath_w : ¬ coordName <:+: path)
    (hpre_w : ¬ coordName <:+: pre)
    (hpost_w : ¬ coordName <:+: post)
    (hpre_last : pre = [] ∨ pre.getLast? = some '\n')
    (hmem : p ∈ coordFiles)
    (hread : fsread fs p = some (pre ++ coordLine q path ++ post)) :
    coordProcess (pre ++ coordLine q path ++ post) = (pre ++ post, true) ∧
    fsread (runCoord fs) p = some (pre ++ post) ∧
    (∀ c, 2 ≤ countSub coordName c → coordProcess c = (c, false)) := by
  have hcnt := coordName_count pre path post q hq hpath_w hpre_w hpost_w hpre_last
  have hconts := coordName_in_line pre path post q
  have hsub := coordSub_removes pre path post q hq hpath_ne hpath_q hpre_w
    hpost_w hpre_last
  have hneq : pre ++ post ≠ pre ++ coordLine q path ++ post := by
    intro h
    have hlen := congrArg List.length h
    simp only [List.length_append, coordLine, List.length_cons] at hlen
    omega
  have hproc : coordProcess (pre ++ coordLine q path ++ post) =
      (pre ++ post, true) := by
    simp only [coordProcess, hconts.1, hconts.2, hcnt, hsub, if_true]
    rw [if_neg hneq]
    simp
  refine ⟨hproc, ?_, ?_⟩
  · have hnd : coordFiles.Nodup := by decide
    have hrf := runFiles_read coordProcess coordFiles fs p _ hnd hmem hread
    show fsread (runFiles coordProcess coordFiles fs) p = _
    rw [hrf, hproc]
    simp
  · intro c hc
    by_cases h1 : containsS coordName c
    · have hbeq : (countSub coordName c == 1) = false := by
        rw [beq_eq_false_iff_ne]
        omega
      simp [coordProcess, h1, hbeq]
    · simp [coordProcess, h1]

/-- Witness for C3 (amended) at a concrete listed file. -/
theorem C3_coordinator_amended_witness :
    coordProcess ([] ++ coordLine '"' (lit ("./x")) ++ []) = ([] ++ [], true) ∧
    fsread (runCoord [(lit ("tests/blockedTaskResolution.test.ts"),
        [] ++ coordLine '"' (lit ("./x")) ++ [])])
      (lit ("tests/blockedTaskResolution.test.ts")) = some ([] ++ []) ∧
    coordProcess (lit ("WorkflowCoordinator WorkflowCoordinator")) =
      (lit ("WorkflowCoordinator WorkflowCoordinator"), false) :=
  have h := C3_coordinator_amended
    [(lit ("tests/blockedTaskResolution.test.ts"),
      [] ++ coordLine '"' (lit ("./x")) ++ [])]
    (lit ("tests/blockedTaskResolution.test.ts")) [] (lit ("./x")) [] '"'
    (by decide) (by decide) (by decide) (by decide) (by decide) (by decide)
    (Or.inl rfl) (by decide) (by decide)
  ⟨h.1, h.2.1, h.2.2 (lit ("WorkflowCoordinator WorkflowCoordinator")) (by decide)⟩

/-- Counterexample to claim C3 as stated: in this listed-file content the
single occurrence of `WorkflowCoordinator` lies in its import line, yet
the removal pattern demands a trailing `;` plus newline, so the script
leaves the file unchanged instead of removing the import line. -/
theorem C3_counterexample :
    countSub coordName coordStuck = 1 ∧
    containsS coordClause coordStuck = true ∧
    coordProcess coordStuck = (coordStuck, false) := by
  refine ⟨by decide, by decide, by decide⟩
